import Mathlib

/-!
Verification development for the `latex-checker` repository
(`src/latex_checker.py`).  The Python source is shallowly embedded here:
strings become `List Char`, the compiled regular expressions of
`MATH_PATTERNS` become explicit scanners with Python `finditer`
semantics (leftmost start, non-greedy extension to the first closing
delimiter, continuation at the end of each match), and each detector is
translated line by line.  Python library calls (`bisect.bisect_right`,
`str.splitlines`, `list.sort`) are embedded by their documented
semantics: `bisect_right` on a sorted list is the length of the prefix
of elements `≤ x`, `splitlines` splits at the Unicode line boundaries
with `\r\n` counted once, and `list.sort` is a stable sort by the key,
modelled by an insertion sort that is stable.  Characters are compared
as ASCII code points; the regex classes `\d`, `\w`, `\s` are modelled
by their ASCII contents, which is exact on ASCII inputs.
-/

namespace LatexChecker

abbrev Text := List Char

def strL (s : String) : Text := s.toList

/-- True exactly when `pat` occurs in `t` starting at offset `i`. -/
def prefixAt : Text → Text → Nat → Bool
  | [], _, _ => true
  | c :: cs, t, i => decide (i < t.length) && decide (t.getD i ' ' = c) && prefixAt cs t (i + 1)

/-- The five entries of `MATH_PATTERNS`, in their list order:
`$$...$$`, `\[...\]`, `\(...\)`, the math environments, `$...$`. -/
inductive Pat
  | dd
  | brk
  | par
  | env
  | sd
deriving DecidableEq

/-- The `MATH_ENVS` list from the source, in order. -/
def MATH_ENVS : List Text :=
  [strL "array", strL "align", strL "align*", strL "gather", strL "gather*"]

/-- Opening-delimiter matcher `openAt p t i`: if the opening delimiter of pattern `p` matches `t` at
offset `i`, return its length together with the closing delimiter that the
non-greedy `.*?` must reach.  For the environment pattern the alternation
`(array|align|align*|gather|gather*)` is tried in list order; the
back-reference makes the closing tag name the same environment.  For the
single-dollar pattern the negative lookahead `(?!\$)` is the second
conjunct. -/
def openAt : Pat → Text → Nat → Option (Nat × Text)
  | .dd, t, i => if prefixAt (strL "$$") t i then some (2, strL "$$") else none
  | .brk, t, i => if prefixAt (strL "\\[") t i then some (2, strL "\\]") else none
  | .par, t, i => if prefixAt (strL "\\(") t i then some (2, strL "\\)") else none
  | .env, t, i =>
    MATH_ENVS.findSome? (fun e =>
      if prefixAt (strL "\\begin\x7b" ++ e ++ strL "\x7d") t i then
        some (8 + e.length, strL "\\end\x7b" ++ e ++ strL "\x7d")
      else none)
  | .sd, t, i =>
    if prefixAt (strL "$") t i && !prefixAt (strL "$$") t i then some (1, strL "$") else none

/-- Fuel-bounded search for the closing delimiter; the fuel only bounds the
recursion depth and `t.length + 1 - lo` is always enough, because the scan
stops no later than at `t.length - close.length`. -/
def findCloseFromAux (t close : Text) : Nat → Nat → Option Nat
  | 0, _ => none
  | f + 1, lo =>
    if lo + close.length ≤ t.length then
      if prefixAt close t lo then some lo else findCloseFromAux t close f (lo + 1)
    else none

/-- Smallest offset `e ≥ lo` at which `close` occurs in `t` (the non-greedy
`.*?` stops at the first closing delimiter). -/
def findCloseFrom (t close : Text) (lo : Nat) : Option Nat :=
  findCloseFromAux t close (t.length + 1 - lo) lo

/-- One step of `re.finditer`: scan start offsets left to right; at a match
emit `(start, end)` and continue at `end`.  `fuel` only bounds the recursion;
`t.length + 1` is always enough because every step advances the offset. -/
def finditerAux (p : Pat) (t : Text) : Nat → Nat → List (Nat × Nat)
  | 0, _ => []
  | fuel + 1, i =>
    if i < t.length then
      match openAt p t i with
      | some (olen, close) =>
        match findCloseFrom t close (i + olen) with
        | some e => (i, e + close.length) :: finditerAux p t fuel (e + close.length)
        | none => finditerAux p t fuel (i + 1)
      | none => finditerAux p t fuel (i + 1)
    else []

/-- All matches of pattern `p` in `t`, as in `p.finditer(t)`. -/
def finditer (p : Pat) (t : Text) : List (Nat × Nat) :=
  finditerAux p t (t.length + 1) 0

/-- Overwrite the characters of `[s, e)` with spaces, keeping newlines
(`if chars[i] != '\n': chars[i] = ' '`). -/
def maskRangeAux (s e : Nat) : Nat → Text → Text
  | _, [] => []
  | i, c :: cs =>
    (if s ≤ i ∧ i < e ∧ c ≠ '\n' then ' ' else c) :: maskRangeAux s e (i + 1) cs

def maskRange (chars : Text) (s e : Nat) : Text := maskRangeAux s e 0 chars

/-- Mask every matched range of one pattern, as the inner `for m in
pattern.finditer(work_text)` loop does. -/
def maskMatches (chars : Text) (ms : List (Nat × Nat)) : Text :=
  ms.foldl (fun cs r => maskRange cs r.1 r.2) chars

/-- The working text after running a list of (indexed) patterns, i.e. the
final `chars` of the shared masking loop of `mask_math_regions`,
`get_math_mask` and `get_math_regions`. -/
def maskFoldChars : List (Nat × Pat) → Text → Text
  | [], work => work
  | (_, p) :: rest, work => maskFoldChars rest (maskMatches work (finditer p work))

/-- The regions recorded by the same loop, tagged with the index of the
pattern that produced each one, pattern-major then match-position. -/
def runPatternsAux : List (Nat × Pat) → Text → List (Nat × Nat × Nat)
  | [], _ => []
  | (k, p) :: rest, work =>
    (finditer p work).map (fun r => (k, r.1, r.2))
      ++ runPatternsAux rest (maskMatches work (finditer p work))

/-- The `MATH_PATTERNS` list with the position of each entry. -/
def PATS : List (Nat × Pat) := [(0, .dd), (1, .brk), (2, .par), (3, .env), (4, .sd)]

/-- Function `mask_math_regions` from the source. -/
def mask_math_regions (t : Text) : Text := maskFoldChars PATS t

/-- Function `get_math_regions` from the source, with each region additionally tagged
by the index of the `MATH_PATTERNS` entry that matched it (the source drops
the tag; `get_math_regions` below is the projection). -/
def regionsTagged (t : Text) : List (Nat × Nat × Nat) := runPatternsAux PATS t

/-- Function `get_math_regions` from the source. -/
def get_math_regions (t : Text) : List (Nat × Nat) :=
  (regionsTagged t).map (fun r => (r.2.1, r.2.2))

/-- Function `get_math_mask` from the source: `math_mask[i]` is set exactly when `i`
falls in a recorded match range (the masking loop is the same one). -/
def get_math_mask (t : Text) : List Bool :=
  (List.range t.length).map
    (fun i => (get_math_regions t).any (fun r => decide (r.1 ≤ i) && decide (i < r.2)))

/-- Offsets of the `\n` characters, as `re.finditer('\n', text)` yields them. -/
def nlAux : Text → Nat → List Nat
  | [], _ => []
  | c :: cs, i => if c = '\n' then i :: nlAux cs (i + 1) else nlAux cs (i + 1)

/-- Function `build_line_starts` from the source. -/
def build_line_starts (t : Text) : List Nat := 0 :: (nlAux t 0).map (· + 1)

/-- Python `bisect.bisect_right` on a sorted list: the insertion point, i.e. the
length of the prefix of elements `≤ x`. -/
def bisect_right (a : List Nat) (x : Nat) : Nat :=
  (a.takeWhile (fun v => decide (v ≤ x))).length

/-- Function `index_to_line_col` from the source. -/
def index_to_line_col (idx : Nat) (ls : List Nat) : Nat × Nat :=
  let lineIndex := bisect_right ls idx - 1
  (lineIndex + 1, idx - ls.getD lineIndex 0 + 1)

/-- The characters `str.splitlines` treats as line boundaries. -/
def pyBoundary (c : Char) : Bool :=
  c ∈ (['\n', '\r', Char.ofNat 11, Char.ofNat 12, Char.ofNat 28, Char.ofNat 29,
        Char.ofNat 30, Char.ofNat 133, Char.ofNat 8232, Char.ofNat 8233] : List Char)

/-- Fuel-bounded splitting; `t.length + 1` fuel is always enough because
every recursive call strictly shortens the text. -/
def splitlinesAux : Nat → Text → List Text
  | 0, _ => []
  | f + 1, t =>
    if t = [] then []
    else
      let line := t.takeWhile (fun c => !pyBoundary c)
      match t.dropWhile (fun c => !pyBoundary c) with
      | [] => [line]
      | c :: r =>
        if c = '\r' ∧ r.getD 0 ' ' = '\n' then line :: splitlinesAux f (r.drop 1)
        else line :: splitlinesAux f r

/-- Python `str.splitlines`: split at Unicode line boundaries, `\r\n` counting as
one boundary, with no trailing empty line. -/
def splitlines (t : Text) : List Text := splitlinesAux (t.length + 1) t

/-- The `kind` tags of issues. -/
inductive IKind
  | digit
  | letter
  | punct
  | spacing
  | backslash
deriving DecidableEq

/-- The issue record.  `ch` is the `char` field; `len` is the `length`
field, present only on backslash issues in the source and 1 (the spec's
default) elsewhere. -/
structure Issue where
  kind : IKind
  index : Nat
  line : Nat
  col : Nat
  ch : Text
  line_text : Text
  len : Nat
deriving DecidableEq

/-- The issue-building code repeated verbatim in every detector:
`line_no, col_no = index_to_line_col(idx, line_starts)` and
`line_text = lines[line_no - 1] if 1 <= line_no <= len(lines) else ""`. -/
def mkIssue (t : Text) (k : IKind) (idx : Nat) (c : Text) (ln : Nat) : Issue :=
  let lc := index_to_line_col idx (build_line_starts t)
  let lines := splitlines t
  { kind := k, index := idx, line := lc.1, col := lc.2, ch := c,
    line_text := if 1 ≤ lc.1 ∧ lc.1 ≤ lines.length then lines.getD (lc.1 - 1) [] else [],
    len := ln }

/-- The regex class `\d` (ASCII). -/
def isDigitCh (c : Char) : Bool := decide ('0' ≤ c) && decide (c ≤ '9')

/-- Function `find_digits_outside_math` from the source: every digit of the masked
text is flagged, in offset order. -/
def find_digits_outside_math (t : Text) : List Issue :=
  let masked := mask_math_regions t
  ((List.range t.length).filter (fun i => isDigitCh (masked.getD i ' '))).map
    (fun i => mkIssue t .digit i [masked.getD i ' '] 1)

/-- The regex class `\w` (ASCII). -/
def isWordCh (c : Char) : Bool := c.isAlpha || isDigitCh c || decide (c = '_')

/-- The character class `[B-HJ-Zb-hj-z]` of `SINGLE_LETTER_PATTERN`. -/
def letterOK (c : Char) : Bool :=
  (decide ('B' ≤ c) && decide (c ≤ 'H')) || (decide ('J' ≤ c) && decide (c ≤ 'Z')) ||
  (decide ('b' ≤ c) && decide (c ≤ 'h')) || (decide ('j' ≤ c) && decide (c ≤ 'z'))

/-- The lookahead class `[\s\.,;:!?]` of `SINGLE_LETTER_PATTERN` (ASCII). -/
def afterLetterClass : List Char :=
  [' ', '\t', '\n', '\r', Char.ofNat 11, Char.ofNat 12, '.', ',', ';', ':', '!', '?']

/-- A match of `SINGLE_LETTER_PATTERN` at offset `i` of `m`: the letter, a
word boundary before it, and a following whitespace/punctuation character
(which settles the second `\b`, since none of those characters are word
characters). -/
def letterCondAt (m : Text) (i : Nat) : Bool :=
  letterOK (m.getD i ' ') &&
  (decide (i = 0) || !isWordCh (m.getD (i - 1) ' ')) &&
  (decide (i + 1 < m.length) && decide ((m.getD (i + 1) ' ') ∈ afterLetterClass))

/-- Function `find_single_letters_outside_math` from the source. -/
def find_single_letters_outside_math (t : Text) : List Issue :=
  let masked := mask_math_regions t
  ((List.range t.length).filter (fun i => letterCondAt masked i)).map
    (fun i => mkIssue t .letter i [masked.getD i ' '] 1)

/-- The grouping kinds tracked by `find_commas_colons_inside_math`. -/
inductive GKind
  | brace
  | paren
  | bracket
deriving DecidableEq

/-- Pop helper: `if stack and stack[-1] == kind: stack.pop()`. -/
def popIf (g : GKind) : List GKind → List GKind
  | [] => []
  | g' :: s => if g' = g then s else g' :: s

/-- One step of the group stack of `find_commas_colons_inside_math`:
push on `\{`, `(`, `[`; pop on `\}`, `)`, `]` when the top matches. -/
def stepStack (t : Text) (stack : List GKind) (i : Nat) : List GKind :=
  let c := t.getD i ' '
  if c = '{' ∧ 0 < i ∧ t.getD (i - 1) ' ' = '\\' then GKind.brace :: stack
  else if c = '(' then GKind.paren :: stack
  else if c = '[' then GKind.bracket :: stack
  else if c = '}' ∧ 0 < i ∧ t.getD (i - 1) ' ' = '\\' then popIf GKind.brace stack
  else if c = ')' then popIf GKind.paren stack
  else if c = ']' then popIf GKind.bracket stack
  else stack

/-- The per-region scan of `find_commas_colons_inside_math`, with the
number of remaining positions as the (exact) recursion counter: process
position `i`, update the stack, flag a comma or colon when the stack is
empty. -/
def commaScanAux (t : Text) : Nat → List GKind → Nat → List Nat
  | 0, _, _ => []
  | f + 1, stack, i =>
    (if (t.getD i ' ' = ',' ∨ t.getD i ' ' = ':') ∧ stepStack t stack i = [] then [i] else [])
      ++ commaScanAux t f (stepStack t stack i) (i + 1)

/-- The `while i < end` loop of `find_commas_colons_inside_math` over the
region `[i, e)`: exactly `e - i` iterations. -/
def commaScan (t : Text) (stack : List GKind) (i e : Nat) : List Nat :=
  commaScanAux t (e - i) stack i

/-- The group stack after the scan has processed `f` positions starting at
`i` (used to decompose `commaScanAux` runs). -/
def scanStack (t : Text) : Nat → List GKind → Nat → List GKind
  | 0, stack, _ => stack
  | f + 1, stack, i => scanStack t f (stepStack t stack i) (i + 1)

/-- Function `find_commas_colons_inside_math` from the source. -/
def find_commas_colons_inside_math (t : Text) : List Issue :=
  (get_math_regions t).flatMap
    (fun r => (commaScan t [] r.1 r.2).map (fun i => mkIssue t .punct i [t.getD i ' '] 1))

/-- The scan of `find_double_backslashes`: emit the offset of each pair of
consecutive backslashes and advance by 2 past it, else by 1.  The fuel only
bounds the recursion; `t.length` is always enough because the offset
strictly increases. -/
def dblAux (t : Text) : Nat → Nat → List Nat
  | 0, _ => []
  | f + 1, i =>
    if i + 1 < t.length then
      if t.getD i ' ' = '\\' ∧ t.getD (i + 1) ' ' = '\\' then i :: dblAux t f (i + 2)
      else dblAux t f (i + 1)
    else []

/-- The offsets reported by `find_double_backslashes`. -/
def dblScan (t : Text) : List Nat := dblAux t t.length 0

/-- Function `find_double_backslashes` from the source. -/
def find_double_backslashes (t : Text) : List Issue :=
  (dblScan t).map (fun i => mkIssue t .backslash i ['\\', '\\'] 2)

/-- The punctuation set `.,;:!?` of `find_spacing_around_punctuation`. -/
def punctList : List Char := ['.', ',', ';', ':', '!', '?']

/-- The `closing_chars` set of the source: double quote, `)`, ASCII
apostrophe (code 39), `]`, `}`, `>`, and the curly closing quotes. -/
def closing_chars : List Char :=
  ['"', ')', Char.ofNat 39, ']', '}', '>', Char.ofNat 8221, Char.ofNat 8217]

/-- Fuel-bounded closer-skipping; `t.length + 1 - j` fuel is always enough
because the loop stops at `t.length` at the latest. -/
def skipClosingAux (t : Text) : Nat → Nat → Nat
  | 0, j => j
  | f + 1, j =>
    if j < t.length ∧ (t.getD j ' ') ∈ closing_chars then skipClosingAux t f (j + 1) else j

/-- The `while j < n and text[j] in closing_chars: j += 1` loop. -/
def skipClosing (t : Text) (j : Nat) : Nat :=
  skipClosingAux t (t.length + 1 - j) j

/-- The flag condition of `find_spacing_around_punctuation` at offset `idx`:
a punctuation character outside math with a space directly before it, or
with a non-whitespace character after the run of closing characters. -/
def spacingPunctCond (t : Text) (idx : Nat) : Bool :=
  decide ((t.getD idx ' ') ∈ punctList) &&
  !((get_math_mask t).getD idx false) &&
  ((decide (0 < idx) && decide (t.getD (idx - 1) ' ' = ' ')) ||
   (decide (skipClosing t (idx + 1) < t.length) &&
    !decide ((t.getD (skipClosing t (idx + 1)) ' ') ∈ ([' ', '\t', '\n', '\r'] : List Char))))

/-- Function `find_spacing_around_punctuation` from the source. -/
def find_spacing_around_punctuation (t : Text) : List Issue :=
  ((List.range t.length).filter (fun i => spacingPunctCond t i)).map
    (fun i => mkIssue t .spacing i [t.getD i ' '] 1)

/-- The `left_delims` set of `find_spacing_inside_delimiters`: `(`, `[`,
double quote, and the curly opening quotes. -/
def left_delims : List Char := ['(', '[', '"', Char.ofNat 8220, Char.ofNat 8216]

/-- The `right_delims` set of `find_spacing_inside_delimiters`: `)`, `]`,
double quote, and the curly closing quotes. -/
def right_delims : List Char := [')', ']', '"', Char.ofNat 8221, Char.ofNat 8217]

/-- The flag condition of `find_spacing_inside_delimiters` at offset `idx`:
a space outside math directly after an opening delimiter or directly before
a closing delimiter. -/
def spacingDelimCond (t : Text) (idx : Nat) : Bool :=
  decide (t.getD idx ' ' = ' ') &&
  !((get_math_mask t).getD idx false) &&
  ((decide (0 < idx) && decide ((t.getD (idx - 1) ' ') ∈ left_delims)) ||
   (decide (idx + 1 < t.length) && decide ((t.getD (idx + 1) ' ') ∈ right_delims)))

/-- Function `find_spacing_inside_delimiters` from the source; the reported character
is the visible-space glyph. -/
def find_spacing_inside_delimiters (t : Text) : List Issue :=
  ((List.range t.length).filter (fun i => spacingDelimCond t i)).map
    (fun i => mkIssue t .spacing i [Char.ofNat 9251] 1)

/-- The closer set as claim C3 words it — written from the claim, for
comparison with the source `closing_chars`; it omits the ASCII
apostrophe. -/
def claimClosers : List Char :=
  ['"', ')', ']', '}', '>', Char.ofNat 8221, Char.ofNat 8217]

/-- Fuel-bounded skipping over `claimClosers` (same loop shape as
`skipClosingAux`, with the claim's closer set). -/
def claimSkipAux (t : Text) : Nat → Nat → Nat
  | 0, j => j
  | f + 1, j =>
    if j < t.length ∧ (t.getD j ' ') ∈ claimClosers then claimSkipAux t f (j + 1) else j

/-- Skipping a run of the claim's closers, starting at `j`. -/
def claimSkip (t : Text) (j : Nat) : Nat := claimSkipAux t (t.length + 1 - j) j

/-- The flag condition exactly as claim C3 states it: flagged iff
immediately preceded by a literal space, or, after skipping the claim's
closer run, the next character exists and is neither whitespace nor itself
one of `.,;:!?`. -/
def spacingClaimCond (t : Text) (idx : Nat) : Bool :=
  (decide (0 < idx) && decide (t.getD (idx - 1) ' ' = ' ')) ||
  (decide (claimSkip t (idx + 1) < t.length) &&
   !decide ((t.getD (claimSkip t (idx + 1)) ' ') ∈ ([' ', '\t', '\n', '\r'] : List Char)) &&
   !decide ((t.getD (claimSkip t (idx + 1)) ' ') ∈ punctList))

/-- The substring claim C4 describes: from the line start at or before
`idx` (everything after the last `\n` before `idx`) up to the next `\n` or
the end of the text. -/
def claimLineText (t : Text) (idx : Nat) : Text :=
  ((t.take idx).reverse.takeWhile (fun c => decide (c ≠ '\n'))).reverse
    ++ (t.drop idx).takeWhile (fun c => decide (c ≠ '\n'))

/-- The concatenated detector output of `analyze_text`, in its fixed order:
digits, letters, punct-in-math, spacing-around-punct,
spacing-inside-delimiters, backslash. -/
def concatIssues (t : Text) : List Issue :=
  find_digits_outside_math t ++ find_single_letters_outside_math t ++
  find_commas_colons_inside_math t ++ find_spacing_around_punctuation t ++
  find_spacing_inside_delimiters t ++ find_double_backslashes t

/-- The deduplication loop of `analyze_text`: keep the first occurrence of
each `(kind, index)` pair. -/
def dedupAux (seen : List (IKind × Nat)) : List Issue → List Issue
  | [] => []
  | is :: rest =>
    if (is.kind, is.index) ∈ seen then dedupAux seen rest
    else is :: dedupAux ((is.kind, is.index) :: seen) rest

/-- The sort key relation of `unique.sort(key=lambda x: x["index"])`. -/
def byIndex (a b : Issue) : Prop := a.index ≤ b.index

instance : DecidableRel byIndex := fun a b => Nat.decLe a.index b.index

instance : IsTotal Issue byIndex := ⟨fun a b => Nat.le_total a.index b.index⟩

instance : IsTrans Issue byIndex := ⟨fun a b c hab hbc => Nat.le_trans hab hbc⟩

/-- Function `analyze_text` from the source.  Python `list.sort` is a stable sort
by the key; `List.insertionSort` with the key relation is stable, hence
extensionally the same sort. -/
def analyze_text (t : Text) : List Issue :=
  List.insertionSort byIndex (dedupAux [] (concatIssues t))

/-! Helper lemmas about masking. -/

theorem dropWhile_length_le (p : Char → Bool) (t : Text) :
    (t.dropWhile p).length ≤ t.length := by
  induction t with
  | nil => simp [List.dropWhile]
  | cons c cs ih =>
    by_cases h : p c
    · simp only [List.dropWhile, h]
      exact Nat.le_succ_of_le ih
    · simp [List.dropWhile, h]


theorem maskRangeAux_length (s e i : Nat) (cs : Text) :
    (maskRangeAux s e i cs).length = cs.length := by
  induction cs generalizing i with
  | nil => rfl
  | cons c cs ih => simp [maskRangeAux, ih]

theorem maskRange_length (cs : Text) (s e : Nat) :
    (maskRange cs s e).length = cs.length := maskRangeAux_length s e 0 cs

theorem maskRangeAux_getD (s e i j : Nat) (cs : Text) (d : Char) (hj : j < cs.length) :
    (maskRangeAux s e i cs).getD j d =
      if s ≤ i + j ∧ i + j < e ∧ cs.getD j d ≠ '\n' then ' ' else cs.getD j d := by
  induction cs generalizing i j with
  | nil => simp at hj
  | cons c cs ih =>
    cases j with
    | zero => simp [maskRangeAux]
    | succ j =>
      simp only [List.length_cons] at hj
      simp only [maskRangeAux, List.getD_cons_succ]
      rw [ih (i + 1) j (by omega)]
      have : i + 1 + j = i + (j + 1) := by omega
      rw [this]

theorem maskRange_stable (cs : Text) (s e j : Nat) (d : Char) :
    (maskRange cs s e).getD j d = cs.getD j d ∨ (maskRange cs s e).getD j d = ' ' := by
  by_cases hj : j < cs.length
  · rw [maskRange, maskRangeAux_getD s e 0 j cs d hj]
    by_cases h : s ≤ 0 + j ∧ 0 + j < e ∧ cs.getD j d ≠ '\n'
    · rw [if_pos h]; right; rfl
    · rw [if_neg h]; left; rfl
  · left
    rw [List.getD_eq_default, List.getD_eq_default]
    · omega
    · rw [maskRange_length]; omega

theorem maskRange_blank (cs : Text) (s e j : Nat)
    (h : cs.getD j ' ' = ' ' ∨ cs.getD j ' ' = '\n') :
    (maskRange cs s e).getD j ' ' = ' ' ∨ (maskRange cs s e).getD j ' ' = '\n' := by
  rcases maskRange_stable cs s e j ' ' with h' | h'
  · rw [h']; exact h
  · rw [h']; left; rfl

theorem maskRange_own (cs : Text) (s e j : Nat) (hs : s ≤ j) (he : j < e) :
    (maskRange cs s e).getD j ' ' = ' ' ∨ (maskRange cs s e).getD j ' ' = '\n' := by
  by_cases hj : j < cs.length
  · rw [maskRange, maskRangeAux_getD s e 0 j cs ' ' hj]
    by_cases hn : cs.getD j ' ' = '\n'
    · right
      rw [if_neg (fun hc => hc.2.2 hn)]
      exact hn
    · left
      rw [if_pos ⟨by omega, by omega, hn⟩]
  · left
    rw [List.getD_eq_default]
    rw [maskRange_length]; omega

theorem maskMatches_cons (cs : Text) (m : Nat × Nat) (ms : List (Nat × Nat)) :
    maskMatches cs (m :: ms) = maskMatches (maskRange cs m.1 m.2) ms := rfl

theorem maskMatches_length (cs : Text) (ms : List (Nat × Nat)) :
    (maskMatches cs ms).length = cs.length := by
  induction ms generalizing cs with
  | nil => rfl
  | cons m ms ih => rw [maskMatches_cons, ih, maskRange_length]

theorem maskMatches_stable (cs : Text) (ms : List (Nat × Nat)) (j : Nat) (d : Char) :
    (maskMatches cs ms).getD j d = cs.getD j d ∨ (maskMatches cs ms).getD j d = ' ' := by
  induction ms generalizing cs with
  | nil => left; rfl
  | cons m ms ih =>
    rw [maskMatches_cons]
    rcases ih (maskRange cs m.1 m.2) with h | h
    · rw [h]
      exact maskRange_stable cs m.1 m.2 j d
    · right; exact h

theorem maskMatches_blank (cs : Text) (ms : List (Nat × Nat)) (j : Nat)
    (h : cs.getD j ' ' = ' ' ∨ cs.getD j ' ' = '\n') :
    (maskMatches cs ms).getD j ' ' = ' ' ∨ (maskMatches cs ms).getD j ' ' = '\n' := by
  rcases maskMatches_stable cs ms j ' ' with h' | h'
  · rw [h']; exact h
  · rw [h']; left; rfl

theorem maskMatches_own (cs : Text) (ms : List (Nat × Nat)) (r : Nat × Nat) (j : Nat)
    (hm : r ∈ ms) (hs : r.1 ≤ j) (he : j < r.2) :
    (maskMatches cs ms).getD j ' ' = ' ' ∨ (maskMatches cs ms).getD j ' ' = '\n' := by
  induction ms generalizing cs with
  | nil => simp at hm
  | cons m ms ih =>
    rw [maskMatches_cons]
    rcases List.mem_cons.mp hm with h | h
    · subst h
      exact maskMatches_blank (maskRange cs r.1 r.2) ms j (maskRange_own cs r.1 r.2 j hs he)
    · exact ih (maskRange cs m.1 m.2) h

theorem maskFoldChars_length (pats : List (Nat × Pat)) (cs : Text) :
    (maskFoldChars pats cs).length = cs.length := by
  induction pats generalizing cs with
  | nil => rfl
  | cons q pats ih =>
    obtain ⟨k, p⟩ := q
    rw [maskFoldChars, ih, maskMatches_length]

theorem maskFoldChars_stable (pats : List (Nat × Pat)) (cs : Text) (j : Nat) (d : Char) :
    (maskFoldChars pats cs).getD j d = cs.getD j d ∨ (maskFoldChars pats cs).getD j d = ' ' := by
  induction pats generalizing cs with
  | nil => left; rfl
  | cons q pats ih =>
    obtain ⟨k, p⟩ := q
    rw [maskFoldChars]
    rcases ih (maskMatches cs (finditer p cs)) with h | h
    · rw [h]
      exact maskMatches_stable cs (finditer p cs) j d
    · right; exact h

theorem maskFoldChars_blank (pats : List (Nat × Pat)) (cs : Text) (j : Nat)
    (h : cs.getD j ' ' = ' ' ∨ cs.getD j ' ' = '\n') :
    (maskFoldChars pats cs).getD j ' ' = ' ' ∨ (maskFoldChars pats cs).getD j ' ' = '\n' := by
  rcases maskFoldChars_stable pats cs j ' ' with h' | h'
  · rw [h']; exact h
  · rw [h']; left; rfl

/-! Helper lemmas about the pattern scanners. -/

theorem prefixAt_head (c : Char) (cs : Text) (t : Text) (i : Nat)
    (h : prefixAt (c :: cs) t i = true) :
    i < t.length ∧ t.getD i ' ' = c ∧ prefixAt cs t (i + 1) = true := by
  simp only [prefixAt, Bool.and_eq_true, decide_eq_true_eq] at h
  exact ⟨h.1.1, h.1.2, h.2⟩

theorem prefixAt_two (a b : Char) (t : Text) (i : Nat)
    (h : prefixAt [a, b] t i = true) :
    i + 1 < t.length ∧ t.getD i ' ' = a ∧ t.getD (i + 1) ' ' = b := by
  obtain ⟨h1, ha, hrest⟩ := prefixAt_head a [b] t i h
  obtain ⟨h2, hb, _⟩ := prefixAt_head b [] t (i + 1) hrest
  exact ⟨h2, ha, hb⟩

theorem findCloseFromAux_spec (t close : Text) :
    ∀ f lo e, findCloseFromAux t close f lo = some e →
      lo ≤ e ∧ e + close.length ≤ t.length ∧ prefixAt close t e = true := by
  intro f
  induction f with
  | zero =>
    intro lo e h
    exact absurd h (by simp [findCloseFromAux])
  | succ f ih =>
    intro lo e h
    rw [findCloseFromAux] at h
    by_cases hfit : lo + close.length ≤ t.length
    · rw [if_pos hfit] at h
      by_cases hp : prefixAt close t lo = true
      · rw [if_pos hp] at h
        injection h with h
        subst h
        exact ⟨Nat.le_refl _, hfit, hp⟩
      · rw [if_neg hp] at h
        have := ih (lo + 1) e h
        exact ⟨by omega, this.2.1, this.2.2⟩
    · rw [if_neg hfit] at h
      exact absurd h (by simp)

theorem findCloseFrom_ge (t close : Text) (lo e : Nat)
    (h : findCloseFrom t close lo = some e) :
    lo ≤ e ∧ e + close.length ≤ t.length ∧ prefixAt close t e = true :=
  findCloseFromAux_spec t close (t.length + 1 - lo) lo e h

theorem openAt_chars (p : Pat) (t : Text) (i olen : Nat) (close : Text)
    (h : openAt p t i = some (olen, close)) :
    (t.getD i ' ' = '$' ∨ t.getD i ' ' = '\\') ∧ i < t.length ∧ 1 ≤ olen ∧ 1 ≤ close.length := by
  cases p with
  | dd =>
    simp only [openAt] at h
    split at h
    · injection h with h
      have h1 : olen = 2 := (congrArg Prod.fst h).symm
      have h2 : close = strL "$$" := (congrArg Prod.snd h).symm
      obtain ⟨hlt, hc, _⟩ := prefixAt_head '$' (strL "$") t i (by assumption)
      exact ⟨Or.inl hc, hlt, by omega, by rw [h2]; decide⟩
    · exact absurd h (by simp)
  | brk =>
    simp only [openAt] at h
    split at h
    · injection h with h
      have h1 : olen = 2 := (congrArg Prod.fst h).symm
      have h2 : close = strL "\\]" := (congrArg Prod.snd h).symm
      obtain ⟨hlt, hc, _⟩ := prefixAt_head '\\' (strL "[") t i (by assumption)
      exact ⟨Or.inr hc, hlt, by omega, by rw [h2]; decide⟩
    · exact absurd h (by simp)
  | par =>
    simp only [openAt] at h
    split at h
    · injection h with h
      have h1 : olen = 2 := (congrArg Prod.fst h).symm
      have h2 : close = strL "\\)" := (congrArg Prod.snd h).symm
      obtain ⟨hlt, hc, _⟩ := prefixAt_head '\\' (strL "(") t i (by assumption)
      exact ⟨Or.inr hc, hlt, by omega, by rw [h2]; decide⟩
    · exact absurd h (by simp)
  | env =>
    simp only [openAt] at h
    obtain ⟨e, hmem, he⟩ := List.exists_of_findSome?_eq_some h
    split at he
    · injection he with he
      have h1 : olen = 8 + e.length := (congrArg Prod.fst he).symm
      have h2 : close = strL "\\end\x7b" ++ e ++ strL "\x7d" := (congrArg Prod.snd he).symm
      have hpre : prefixAt ('\\' :: (strL "begin\x7b" ++ e ++ strL "\x7d")) t i = true := by
        assumption
      obtain ⟨hlt, hc, _⟩ := prefixAt_head '\\' _ t i hpre
      refine ⟨Or.inr hc, hlt, by omega, ?_⟩
      rw [h2]
      simp [strL]
    · exact absurd he (by simp)
  | sd =>
    simp only [openAt] at h
    split at h
    · injection h with h
      have h1 : olen = 1 := (congrArg Prod.fst h).symm
      have h2 : close = strL "$" := (congrArg Prod.snd h).symm
      rename_i hcond
      have hp : prefixAt (strL "$") t i = true := by
        have := Bool.and_eq_true_iff.mp hcond
        exact this.1
      obtain ⟨hlt, hc, _⟩ := prefixAt_head '$' [] t i hp
      exact ⟨Or.inl hc, hlt, by omega, by rw [h2]; decide⟩
    · exact absurd h (by simp)

theorem finditerAux_mem (p : Pat) (t : Text) :
    ∀ fuel i s eEnd, (s, eEnd) ∈ finditerAux p t fuel i →
      i ≤ s ∧ ∃ olen close, openAt p t s = some (olen, close) ∧
        ∃ ce, findCloseFrom t close (s + olen) = some ce ∧ eEnd = ce + close.length := by
  intro fuel
  induction fuel with
  | zero => intro i s eEnd h; simp [finditerAux] at h
  | succ fuel ih =>
    intro i s eEnd h
    rw [finditerAux] at h
    by_cases hi : i < t.length
    · rw [if_pos hi] at h
      split at h
      · split at h
        · rename_i _x olen close ho _y ce hf
          rcases List.mem_cons.mp h with heq | hmem
          · have hs : s = i := congrArg Prod.fst heq
            have he : eEnd = ce + close.length := congrArg Prod.snd heq
            subst hs
            exact ⟨Nat.le_refl _, olen, close, ho, ce, hf, he⟩
          · have := ih (ce + close.length) s eEnd hmem
            obtain ⟨hge, rest⟩ := this
            have hce := findCloseFrom_ge t close (i + olen) ce hf
            have hop := openAt_chars p t i olen close ho
            exact ⟨by omega, rest⟩
        · have := ih (i + 1) s eEnd h
          exact ⟨by omega, this.2⟩
      · have := ih (i + 1) s eEnd h
        exact ⟨by omega, this.2⟩
    · rw [if_neg hi] at h
      simp at h

theorem finditer_mem (p : Pat) (t : Text) (s eEnd : Nat)
    (h : (s, eEnd) ∈ finditer p t) :
    ∃ olen close, openAt p t s = some (olen, close) ∧
      ∃ ce, findCloseFrom t close (s + olen) = some ce ∧ eEnd = ce + close.length :=
  (finditerAux_mem p t (t.length + 1) 0 s eEnd h).2

/-- Every match is inside the text, nonempty, and starts at a `$` or `\`. -/
theorem finditer_bounds (p : Pat) (t : Text) (s eEnd : Nat)
    (h : (s, eEnd) ∈ finditer p t) :
    s < eEnd ∧ eEnd ≤ t.length ∧ (t.getD s ' ' = '$' ∨ t.getD s ' ' = '\\') := by
  obtain ⟨olen, close, ho, ce, hf, he⟩ := finditer_mem p t s eEnd h
  obtain ⟨hch, hlt, holen, hclen⟩ := openAt_chars p t s olen close ho
  obtain ⟨hge, hfit, _⟩ := findCloseFrom_ge t close (s + olen) ce hf
  subst he
  exact ⟨by omega, by omega, hch⟩

/-! Helper lemmas about the recorded regions. -/

theorem runPatternsAux_cons (k : Nat) (p : Pat) (rest : List (Nat × Pat)) (work : Text) :
    runPatternsAux ((k, p) :: rest) work =
      (finditer p work).map (fun r => (k, r.1, r.2))
        ++ runPatternsAux rest (maskMatches work (finditer p work)) := rfl

theorem maskFoldChars_cons (k : Nat) (p : Pat) (rest : List (Nat × Pat)) (work : Text) :
    maskFoldChars ((k, p) :: rest) work =
      maskFoldChars rest (maskMatches work (finditer p work)) := rfl

/-- Every recorded region is nonempty, lies inside the text, and starts at a
`$` or `\` of the working text of the stage that found it — hence of every
earlier working text, because masking only writes spaces. -/
theorem runPatterns_start (pats : List (Nat × Pat)) :
    ∀ (work : Text) (k s e : Nat), (k, s, e) ∈ runPatternsAux pats work →
      s < e ∧ e ≤ work.length ∧ (work.getD s ' ' = '$' ∨ work.getD s ' ' = '\\') := by
  induction pats with
  | nil => intro work k s e h; simp [runPatternsAux] at h
  | cons q rest ih =>
    obtain ⟨kq, p⟩ := q
    intro work k s e h
    rw [runPatternsAux_cons] at h
    rcases List.mem_append.mp h with h | h
    · obtain ⟨r, hr, heq⟩ := List.mem_map.mp h
      have hs : s = r.1 := congrArg (fun x => x.2.1) heq.symm
      have he : e = r.2 := congrArg (fun x => x.2.2) heq.symm
      subst hs; subst he
      have := finditer_bounds p work r.1 r.2 (by simpa using hr)
      exact this
    · have := ih (maskMatches work (finditer p work)) k s e h
      obtain ⟨hse, hlen, hch⟩ := this
      rw [maskMatches_length] at hlen
      refine ⟨hse, hlen, ?_⟩
      rcases maskMatches_stable work (finditer p work) s ' ' with hst | hst
      · rw [hst] at hch; exact hch
      · rw [hst] at hch
        rcases hch with hc | hc <;> exact absurd hc (by decide)

/-- Every recorded region's tag is one of the pattern indices. -/
theorem runPatterns_tags (pats : List (Nat × Pat)) :
    ∀ (work : Text) (k s e : Nat), (k, s, e) ∈ runPatternsAux pats work →
      k ∈ pats.map Prod.fst := by
  induction pats with
  | nil => intro work k s e h; simp [runPatternsAux] at h
  | cons q rest ih =>
    obtain ⟨kq, p⟩ := q
    intro work k s e h
    rw [runPatternsAux_cons] at h
    rcases List.mem_append.mp h with h | h
    · obtain ⟨r, hr, heq⟩ := List.mem_map.mp h
      have : k = kq := congrArg (fun x => x.1) heq.symm
      simp [this]
    · have := ih (maskMatches work (finditer p work)) k s e h
      simp [this]

/-- After the whole masking loop, every offset of every recorded region
holds a space or a newline. -/
theorem runPatterns_blank (pats : List (Nat × Pat)) :
    ∀ (work : Text) (k s e : Nat), (k, s, e) ∈ runPatternsAux pats work →
      ∀ i, s ≤ i → i < e →
        (maskFoldChars pats work).getD i ' ' = ' ' ∨
        (maskFoldChars pats work).getD i ' ' = '\n' := by
  induction pats with
  | nil => intro work k s e h; simp [runPatternsAux] at h
  | cons q rest ih =>
    obtain ⟨kq, p⟩ := q
    intro work k s e h i hs he
    rw [runPatternsAux_cons] at h
    rw [maskFoldChars_cons]
    rcases List.mem_append.mp h with h | h
    · obtain ⟨r, hr, heq⟩ := List.mem_map.mp h
      have hs' : s = r.1 := congrArg (fun x => x.2.1) heq.symm
      have he' : e = r.2 := congrArg (fun x => x.2.2) heq.symm
      subst hs'; subst he'
      have hblank := maskMatches_own work (finditer p work) r i hr hs he
      exact maskFoldChars_blank rest _ i hblank
    · exact ih (maskMatches work (finditer p work)) k s e h i hs he

/-- A region found by a later pattern never starts inside a region found by
an earlier pattern: its opening delimiter would have to sit on characters
the earlier match already blanked out. -/
theorem runPatterns_no_start_inside (pats : List (Nat × Pat)) :
    ∀ (work : Text), (pats.map Prod.fst).Pairwise (· < ·) →
      ∀ k1 s1 e1 k2 s2 e2,
        (k1, s1, e1) ∈ runPatternsAux pats work →
        (k2, s2, e2) ∈ runPatternsAux pats work →
        k1 < k2 → ¬(s1 ≤ s2 ∧ s2 < e1) := by
  induction pats with
  | nil => intro work _ k1 s1 e1 k2 s2 e2 h1; simp [runPatternsAux] at h1
  | cons q rest ih =>
    obtain ⟨kq, p⟩ := q
    intro work hpw k1 s1 e1 k2 s2 e2 h1 h2 hk
    have hpw' : (rest.map Prod.fst).Pairwise (· < ·) := (List.pairwise_cons.mp hpw).2
    have hkq : ∀ k' ∈ rest.map Prod.fst, kq < k' := (List.pairwise_cons.mp hpw).1
    rw [runPatternsAux_cons] at h1 h2
    rcases List.mem_append.mp h1 with h1 | h1 <;> rcases List.mem_append.mp h2 with h2 | h2
    · -- both from the head pattern: equal tags, contradiction with k1 < k2
      obtain ⟨r1, _, heq1⟩ := List.mem_map.mp h1
      obtain ⟨r2, _, heq2⟩ := List.mem_map.mp h2
      have e1' : k1 = kq := congrArg (fun x => x.1) heq1.symm
      have e2' : k2 = kq := congrArg (fun x => x.1) heq2.symm
      omega
    · -- earlier region from the head, later from the rest
      obtain ⟨r1, hr1, heq1⟩ := List.mem_map.mp h1
      have hs1 : s1 = r1.1 := congrArg (fun x => x.2.1) heq1.symm
      have he1 : e1 = r1.2 := congrArg (fun x => x.2.2) heq1.symm
      subst hs1; subst he1
      rintro ⟨hle, hlt⟩
      have hstart := runPatterns_start rest (maskMatches work (finditer p work)) k2 s2 e2 h2
      have hblank := maskMatches_own work (finditer p work) r1 s2 hr1 hle hlt
      rcases hstart.2.2 with hc | hc <;> rcases hblank with hb | hb <;>
        rw [hc] at hb <;> exact absurd hb (by decide)
    · -- earlier region from the rest, later from the head: impossible tags
      obtain ⟨r2, _, heq2⟩ := List.mem_map.mp h2
      have e2' : k2 = kq := congrArg (fun x => x.1) heq2.symm
      have := hkq k1 (runPatterns_tags rest _ k1 s1 e1 h1)
      omega
    · exact ih (maskMatches work (finditer p work)) hpw' k1 s1 e1 k2 s2 e2 h1 h2 hk

/-! Claim C1: idempotence of `mask_math_regions`. -/

/-- C1, counterexample: masking is not idempotent.  On `"$$x$ $"` the first
pass leaves `"$    $"` (the two leading `$$` block the single-dollar
lookahead), and the second pass masks the whole string. -/
theorem c1_counterexample :
    mask_math_regions (mask_math_regions (strL "$$x$ $")) ≠
      mask_math_regions (strL "$$x$ $") := by decide

/-- C1, amended: masking never un-masks.  `mask_math_regions` preserves the
length of the text, and every position already blanked to a space in
`mask_math_regions t` is still a space in
`mask_math_regions (mask_math_regions t)`; full idempotence fails
(`c1_counterexample`). -/
theorem c1_mask_never_unmasks (t : Text) :
    (mask_math_regions t).length = t.length ∧
    ∀ i, (mask_math_regions t).getD i ' ' = ' ' →
      (mask_math_regions (mask_math_regions t)).getD i ' ' = ' ' := by
  constructor
  · exact maskFoldChars_length PATS t
  · intro i h
    rcases maskFoldChars_stable PATS (mask_math_regions t) i ' ' with h' | h'
    · rw [mask_math_regions, h', h]
    · exact h'

/-- C1, witness for `c1_mask_never_unmasks` at `t = "$x$"`, `i = 0`. -/
theorem c1_witness :
    (mask_math_regions (strL "$x$")).length = (strL "$x$").length ∧
    (mask_math_regions (mask_math_regions (strL "$x$"))).getD 0 ' ' = ' ' :=
  ⟨(c1_mask_never_unmasks (strL "$x$")).1,
   (c1_mask_never_unmasks (strL "$x$")).2 0 (by decide)⟩

/-! Claim C2: regions of distinct patterns never overlap. -/

/-- C2, counterexample: in `"$ \[x\] $"` the `\[...\]` pattern (index 1)
records the region `[2, 7)` and the single-dollar pattern (index 4) then
records `[0, 9)`, which swallows it: offset 2 lies in both. -/
theorem c2_counterexample :
    (1, 2, 7) ∈ regionsTagged (strL "$ \\[x\\] $") ∧
    (4, 0, 9) ∈ regionsTagged (strL "$ \\[x\\] $") ∧
    (2 ≤ 2 ∧ 2 < 7) ∧ (0 ≤ 2 ∧ 2 < 9) := by decide

/-- C2, amended: regions of distinct patterns can overlap
(`c2_counterexample`), but a region of a later pattern never starts inside
a region of an earlier pattern — the overlap can only be a later region
swallowing an earlier one through its `.*?` interior. -/
theorem c2_no_start_inside_earlier (t : Text) (k1 s1 e1 k2 s2 e2 : Nat)
    (h1 : (k1, s1, e1) ∈ regionsTagged t) (h2 : (k2, s2, e2) ∈ regionsTagged t)
    (hk : k1 < k2) : ¬(s1 ≤ s2 ∧ s2 < e1) :=
  runPatterns_no_start_inside PATS t (by decide) k1 s1 e1 k2 s2 e2 h1 h2 hk

/-- C2, witness for `c2_no_start_inside_earlier` on `"$ \[x\] $"`: the
single-dollar region `[0, 9)` does not start inside the bracket region
`[2, 7)`. -/
theorem c2_witness : ¬(2 ≤ 0 ∧ 0 < 7) :=
  c2_no_start_inside_earlier (strL "$ \\[x\\] $") 1 2 7 4 0 9
    (by decide) (by decide) (by decide)

/-! Claim C10: the single-letter detector works on the masked text. -/

/-- C10: `find_single_letters_outside_math` evaluates its conditions on the
masked text.  On `"x$y$"` the detector reports a letter issue at offset 0:
the character after `x` in the original text is `$`, which is neither
whitespace nor sentence punctuation (so the match condition fails on the
original text), but masking `$y$` turns it into a space, on which the
condition holds. -/
theorem c10_letters_masked :
    (find_single_letters_outside_math (strL "x$y$")).map (fun is => (is.kind, is.index)) =
      [(IKind.letter, 0)] ∧
    (strL "x$y$").getD 1 ' ' = '$' ∧
    '$' ∉ afterLetterClass ∧
    (mask_math_regions (strL "x$y$")).getD 1 ' ' = ' ' ∧
    letterCondAt (mask_math_regions (strL "x$y$")) 0 = true ∧
    letterCondAt (strL "x$y$") 0 = false := by decide

/-! Claim C7: `index_to_line_col` via `bisect_right`. -/

theorem takeWhile_len_le {α : Type} (p : α → Bool) (l : List α) :
    (l.takeWhile p).length ≤ l.length := by
  induction l with
  | nil => simp [List.takeWhile]
  | cons c cs ih =>
    by_cases h : p c
    · simp only [List.takeWhile, h]
      simpa using ih
    · simp [List.takeWhile, h]

theorem takeWhile_getD {α : Type} (p : α → Bool) (l : List α) (d : α) :
    ∀ j, j < (l.takeWhile p).length →
      (l.takeWhile p).getD j d = l.getD j d ∧ p (l.getD j d) = true := by
  induction l with
  | nil => intro j hj; simp [List.takeWhile] at hj
  | cons c cs ih =>
    intro j hj
    by_cases h : p c
    · simp only [List.takeWhile, h] at hj ⊢
      cases j with
      | zero => simpa using h
      | succ j =>
        simp only [List.getD_cons_succ]
        exact ih j (by simpa using hj)
    · simp [List.takeWhile, h] at hj

theorem takeWhile_after {α : Type} (p : α → Bool) (l : List α) (d : α)
    (h : (l.takeWhile p).length < l.length) :
    p (l.getD (l.takeWhile p).length d) = false := by
  induction l with
  | nil => simp at h
  | cons c cs ih =>
    by_cases hp : p c
    · simp only [List.takeWhile, hp] at h ⊢
      simp only [List.length_cons] at h
      simpa using ih (by omega)
    · simp [List.takeWhile, hp]

theorem nlAux_ge (cs : Text) : ∀ i x, x ∈ nlAux cs i → i ≤ x := by
  induction cs with
  | nil => intro i x hx; simp [nlAux] at hx
  | cons c cs ih =>
    intro i x hx
    rw [nlAux] at hx
    by_cases h : c = '\n'
    · rw [if_pos h] at hx
      rcases List.mem_cons.mp hx with h' | h'
      · omega
      · have := ih (i + 1) x h'
        omega
    · rw [if_neg h] at hx
      have := ih (i + 1) x hx
      omega

theorem nlAux_pairwise (cs : Text) : ∀ i, (nlAux cs i).Pairwise (· < ·) := by
  induction cs with
  | nil => intro i; simp [nlAux]
  | cons c cs ih =>
    intro i
    rw [nlAux]
    by_cases h : c = '\n'
    · rw [if_pos h]
      refine List.pairwise_cons.mpr ⟨?_, ih (i + 1)⟩
      intro x hx
      have := nlAux_ge cs (i + 1) x hx
      omega
    · rw [if_neg h]
      exact ih (i + 1)

theorem line_starts_pairwise (t : Text) : (build_line_starts t).Pairwise (· < ·) := by
  rw [build_line_starts]
  refine List.pairwise_cons.mpr ⟨?_, ?_⟩
  · intro x hx
    obtain ⟨y, hy, hxy⟩ := List.mem_map.mp hx
    omega
  · exact List.Pairwise.map _ (fun a b h => by omega) (nlAux_pairwise t 0)

theorem getD_mem_of_lt {α : Type} (l : List α) (n : Nat) (d : α) (h : n < l.length) :
    l.getD n d ∈ l := by
  induction l generalizing n with
  | nil => simp at h
  | cons c cs ih =>
    cases n with
    | zero => simp
    | succ n =>
      simp only [List.getD_cons_succ]
      exact List.mem_cons_of_mem c (ih n (by simpa using h))

theorem pairwise_lt_getD (l : List Nat) (hp : l.Pairwise (· < ·)) :
    ∀ a b, a < b → b < l.length → l.getD a 0 < l.getD b 0 := by
  induction l with
  | nil => intro a b _ hb; simp at hb
  | cons c cs ih =>
    intro a b hab hb
    obtain ⟨hc, hcs⟩ := List.pairwise_cons.mp hp
    cases a with
    | zero =>
      cases b with
      | zero => omega
      | succ b =>
        simp only [List.getD_cons_zero, List.getD_cons_succ]
        refine hc _ (getD_mem_of_lt cs b 0 (by simpa using hb))
    | succ a =>
      cases b with
      | zero => omega
      | succ b =>
        simp only [List.getD_cons_succ]
        exact ih hcs a b (by omega) (by simpa using hb)

/-- C7: for any offset `0 ≤ idx ≤ len(t)`, `index_to_line_col` succeeds and
returns `(i + 1, idx - line_starts[i] + 1)` where `line_starts[i]` is the
greatest line start `≤ idx`. -/
theorem c7_index_to_line_col (t : Text) (idx : Nat) (hidx : idx ≤ t.length) :
    ∃ i, i < (build_line_starts t).length ∧
      (build_line_starts t).getD i 0 ≤ idx ∧
      (∀ j, j < (build_line_starts t).length → (build_line_starts t).getD j 0 ≤ idx →
        (build_line_starts t).getD j 0 ≤ (build_line_starts t).getD i 0) ∧
      index_to_line_col idx (build_line_starts t) =
        (i + 1, idx - (build_line_starts t).getD i 0 + 1) := by
  set ls := build_line_starts t with hls
  set b := bisect_right ls idx with hb
  have hbdef : b = (ls.takeWhile (fun v => decide (v ≤ idx))).length := rfl
  have hble : b ≤ ls.length := takeWhile_len_le _ ls
  have hb1 : 1 ≤ b := by
    have : ls = 0 :: (nlAux t 0).map (· + 1) := hls
    rw [hb, bisect_right, this]
    simp [List.takeWhile]
  refine ⟨b - 1, by omega, ?_, ?_, ?_⟩
  · have := takeWhile_getD (fun v => decide (v ≤ idx)) ls 0 (b - 1) (by omega)
    have hp := this.2
    simpa using hp
  · intro j hj hjle
    by_cases hcmp : j ≤ b - 1
    · rcases Nat.lt_or_ge j (b - 1) with h | h
      · exact Nat.le_of_lt (pairwise_lt_getD ls (line_starts_pairwise t) j (b - 1) h (by omega))
      · have : j = b - 1 := by omega
        rw [this]
    · exfalso
      have hbj : b ≤ j := by omega
      have hblt : b < ls.length := by omega
      have hafter := takeWhile_after (fun v => decide (v ≤ idx)) ls 0 hblt
      have hgt : idx < ls.getD b 0 := by simpa using hafter
      rcases Nat.lt_or_ge b j with h | h
      · have := pairwise_lt_getD ls (line_starts_pairwise t) b j h hj
        omega
      · have : b = j := by omega
        subst this
        omega
  · rw [index_to_line_col]

/-- C7, witness at `t = "ab\ncd"`, `idx = 4` (line 2, column 2). -/
theorem c7_witness :
    ∃ i, i < (build_line_starts (strL "ab\ncd")).length ∧
      (build_line_starts (strL "ab\ncd")).getD i 0 ≤ 4 ∧
      (∀ j, j < (build_line_starts (strL "ab\ncd")).length →
        (build_line_starts (strL "ab\ncd")).getD j 0 ≤ 4 →
        (build_line_starts (strL "ab\ncd")).getD j 0 ≤ (build_line_starts (strL "ab\ncd")).getD i 0) ∧
      index_to_line_col 4 (build_line_starts (strL "ab\ncd")) =
        (i + 1, 4 - (build_line_starts (strL "ab\ncd")).getD i 0 + 1) :=
  c7_index_to_line_col (strL "ab\ncd") 4 (by decide)

/-! Claim C8: `find_double_backslashes`. -/

theorem dblAux_lb (t : Text) : ∀ f i p, p ∈ dblAux t f i → i ≤ p := by
  intro f
  induction f with
  | zero => intro i p hp; simp [dblAux] at hp
  | succ f ih =>
    intro i p hp
    rw [dblAux] at hp
    by_cases h1 : i + 1 < t.length
    · rw [if_pos h1] at hp
      by_cases h2 : t.getD i ' ' = '\\' ∧ t.getD (i + 1) ' ' = '\\'
      · rw [if_pos h2] at hp
        rcases List.mem_cons.mp hp with h | h
        · omega
        · have := ih (i + 2) p h; omega
      · rw [if_neg h2] at hp
        have := ih (i + 1) p hp; omega
    · rw [if_neg h1] at hp
      simp at hp

theorem dblAux_chars (t : Text) : ∀ f i p, p ∈ dblAux t f i →
    p + 1 < t.length ∧ t.getD p ' ' = '\\' ∧ t.getD (p + 1) ' ' = '\\' := by
  intro f
  induction f with
  | zero => intro i p hp; simp [dblAux] at hp
  | succ f ih =>
    intro i p hp
    rw [dblAux] at hp
    by_cases h1 : i + 1 < t.length
    · rw [if_pos h1] at hp
      by_cases h2 : t.getD i ' ' = '\\' ∧ t.getD (i + 1) ' ' = '\\'
      · rw [if_pos h2] at hp
        rcases List.mem_cons.mp hp with h | h
        · subst h; exact ⟨h1, h2⟩
        · exact ih (i + 2) p h
      · rw [if_neg h2] at hp
        exact ih (i + 1) p hp
    · rw [if_neg h1] at hp
      simp at hp

theorem dblAux_gap (t : Text) : ∀ f i, (dblAux t f i).Pairwise (fun a b => a + 2 ≤ b) := by
  intro f
  induction f with
  | zero => intro i; simp [dblAux]
  | succ f ih =>
    intro i
    rw [dblAux]
    by_cases h1 : i + 1 < t.length
    · rw [if_pos h1]
      by_cases h2 : t.getD i ' ' = '\\' ∧ t.getD (i + 1) ' ' = '\\'
      · rw [if_pos h2]
        refine List.pairwise_cons.mpr ⟨?_, ih (i + 2)⟩
        intro p hp
        have := dblAux_lb t f (i + 2) p hp
        omega
      · rw [if_neg h2]
        exact ih (i + 1)
    · rw [if_neg h1]
      simp

theorem dblAux_fuel (t : Text) : ∀ f g i, t.length ≤ f + i → t.length ≤ g + i →
    dblAux t f i = dblAux t g i := by
  intro f
  induction f with
  | zero =>
    intro g i hf hg
    cases g with
    | zero => rfl
    | succ g =>
      rw [dblAux, dblAux, if_neg (by omega)]
  | succ f ih =>
    intro g i hf hg
    cases g with
    | zero =>
      rw [dblAux, dblAux, if_neg (by omega)]
    | succ g =>
      rw [dblAux]
      conv_rhs => rw [dblAux]
      by_cases h1 : i + 1 < t.length
      · rw [if_pos h1, if_pos h1]
        by_cases h2 : t.getD i ' ' = '\\' ∧ t.getD (i + 1) ' ' = '\\'
        · rw [if_pos h2, if_pos h2, ih g (i + 2) (by omega) (by omega)]
        · rw [if_neg h2, if_neg h2, ih g (i + 1) (by omega) (by omega)]
      · rw [if_neg h1, if_neg h1]

theorem dblAux_reach (t : Text) (i : Nat) (hleft : i = 0 ∨ t.getD (i - 1) ' ' ≠ '\\') :
    ∀ f s, s ≤ i → t.length ≤ f + s →
      (dblAux t f s).filter (fun p => decide (i ≤ p)) = dblAux t f i := by
  intro f
  induction f with
  | zero =>
    intro s hs hf
    simp [dblAux]
  | succ f ih =>
    intro s hs hf
    rcases Nat.lt_or_ge s i with hlt | hge
    · rw [dblAux]
      by_cases h1 : s + 1 < t.length
      · rw [if_pos h1]
        by_cases h2 : t.getD s ' ' = '\\' ∧ t.getD (s + 1) ' ' = '\\'
        · rw [if_pos h2]
          have hs2 : s + 2 ≤ i := by
            rcases Nat.lt_or_ge (s + 1) i with h | h
            · omega
            · exfalso
              have hsi : s = i - 1 := by omega
              rcases hleft with h0 | hne
              · omega
              · exact hne (hsi ▸ h2.1)
          rw [List.filter_cons_of_neg (by simpa using by omega)]
          rw [ih (s + 2) hs2 (by omega)]
          exact dblAux_fuel t f (f + 1) i (by omega) (by omega)
        · rw [if_neg h2]
          rw [ih (s + 1) (by omega) (by omega)]
          exact dblAux_fuel t f (f + 1) i (by omega) (by omega)
      · rw [if_neg h1]
        rw [dblAux, if_neg (by omega)]
        rfl
    · have : s = i := by omega
      subst this
      refine List.filter_eq_self.mpr ?_
      intro p hp
      have := dblAux_lb t (f + 1) s p hp
      simpa using this

/-- C8: every reported double-backslash issue has `length = 2` and sits on
two consecutive backslashes; the reported offsets are at least 2 apart; and
a maximal run of exactly four backslashes yields exactly the two issues at
its first and third characters. -/
theorem c8_double_backslashes (t : Text) (i : Nat)
    (hc0 : t.getD i ' ' = '\\') (hc1 : t.getD (i + 1) ' ' = '\\')
    (hc2 : t.getD (i + 2) ' ' = '\\') (hc3 : t.getD (i + 3) ' ' = '\\')
    (hlen : i + 3 < t.length)
    (hleft : i = 0 ∨ t.getD (i - 1) ' ' ≠ '\\')
    (hright : i + 4 = t.length ∨ t.getD (i + 4) ' ' ≠ '\\') :
    (∀ is ∈ find_double_backslashes t, is.len = 2) ∧
    (∀ p ∈ dblScan t,
      p + 1 < t.length ∧ t.getD p ' ' = '\\' ∧ t.getD (p + 1) ' ' = '\\') ∧
    (dblScan t).Pairwise (fun a b => a + 2 ≤ b) ∧
    (dblScan t).filter (fun p => decide (p < i + 4) && decide (i ≤ p)) = [i, i + 2] := by
  refine ⟨?_, ?_, ?_, ?_⟩
  · intro is hmem
    obtain ⟨p, _, heq⟩ := List.mem_map.mp hmem
    rw [← heq]
    rfl
  · intro p hp
    exact dblAux_chars t t.length 0 p hp
  · exact dblAux_gap t t.length 0
  · have hcomm : (dblScan t).filter (fun p => decide (p < i + 4) && decide (i ≤ p)) =
        ((dblScan t).filter (fun p => decide (i ≤ p))).filter (fun p => decide (p < i + 4)) := by
      rw [List.filter_filter]
    rw [hcomm]
    rw [show (dblScan t).filter (fun p => decide (i ≤ p)) = dblAux t t.length i from
      dblAux_reach t i hleft t.length 0 (Nat.zero_le i) (by omega)]
    obtain ⟨f1, hf1⟩ : ∃ f1, t.length = f1 + 1 := ⟨t.length - 1, by omega⟩
    rw [hf1, dblAux, if_pos (by omega), if_pos ⟨hc0, hc1⟩]
    obtain ⟨f2, hf2⟩ : ∃ f2, f1 = f2 + 1 := ⟨f1 - 1, by omega⟩
    rw [hf2, dblAux, if_pos (by omega), if_pos ⟨hc2, hc3⟩]
    have htail : ∀ p ∈ dblAux t f2 (i + 4), ¬(p < i + 4) := by
      intro p hp
      have := dblAux_lb t f2 (i + 4) p hp
      omega
    rw [List.filter_cons_of_pos (by simp),
        List.filter_cons_of_pos (by simp)]
    rw [List.filter_eq_nil.mpr (by intro p hp; simpa using htail p hp)]

/-- C8, witness on the four-backslash string at `i = 0`. -/
theorem c8_witness :
    (∀ is ∈ find_double_backslashes (strL "\\\\\\\\"), is.len = 2) ∧
    (∀ p ∈ dblScan (strL "\\\\\\\\"),
      p + 1 < (strL "\\\\\\\\").length ∧ (strL "\\\\\\\\").getD p ' ' = '\\' ∧
      (strL "\\\\\\\\").getD (p + 1) ' ' = '\\') ∧
    (dblScan (strL "\\\\\\\\")).Pairwise (fun a b => a + 2 ≤ b) ∧
    (dblScan (strL "\\\\\\\\")).filter (fun p => decide (p < 0 + 4) && decide (0 ≤ p)) =
      [0, 0 + 2] :=
  c8_double_backslashes (strL "\\\\\\\\") 0 (by decide) (by decide) (by decide) (by decide)
    (by decide) (Or.inl rfl) (Or.inl (by decide))

/-! Claim C3: the spacing-around-punctuation condition. -/

theorem skipClosingAux_spec (t : Text) :
    ∀ f j, t.length + 1 ≤ f + j → j ≤ t.length →
      j ≤ skipClosingAux t f j ∧ skipClosingAux t f j ≤ t.length ∧
      (∀ m, j ≤ m → m < skipClosingAux t f j → (t.getD m ' ') ∈ closing_chars) ∧
      (skipClosingAux t f j < t.length →
        (t.getD (skipClosingAux t f j) ' ') ∉ closing_chars) := by
  intro f
  induction f with
  | zero =>
    intro j hf hj
    omega
  | succ f ih =>
    intro j hf hj
    rw [skipClosingAux]
    by_cases hc : j < t.length ∧ (t.getD j ' ') ∈ closing_chars
    · rw [if_pos hc]
      obtain ⟨h1, h2, h3, h4⟩ := ih (j + 1) (by omega) (by omega)
      refine ⟨by omega, h2, ?_, h4⟩
      intro m hm1 hm2
      rcases Nat.lt_or_ge m (j + 1) with h | h
      · have : m = j := by omega
        subst this
        exact hc.2
      · exact h3 m h hm2
    · rw [if_neg hc]
      refine ⟨Nat.le_refl _, hj, ?_, ?_⟩
      · intro m hm1 hm2; omega
      · intro hlt hmem
        exact hc ⟨hlt, hmem⟩

theorem skipClosing_spec (t : Text) (j : Nat) (hj : j ≤ t.length) :
    j ≤ skipClosing t j ∧ skipClosing t j ≤ t.length ∧
    (∀ m, j ≤ m → m < skipClosing t j → (t.getD m ' ') ∈ closing_chars) ∧
    (skipClosing t j < t.length → (t.getD (skipClosing t j) ' ') ∉ closing_chars) :=
  skipClosingAux_spec t (t.length + 1 - j) j (by omega) hj

theorem skipClosing_unique (t : Text) (j jx : Nat) (hj : j ≤ t.length)
    (hge : j ≤ jx) (hle : jx ≤ t.length)
    (hrun : ∀ m, j ≤ m → m < jx → (t.getD m ' ') ∈ closing_chars)
    (hstop : jx < t.length → (t.getD jx ' ') ∉ closing_chars) :
    skipClosing t j = jx := by
  obtain ⟨h1, h2, h3, h4⟩ := skipClosing_spec t j hj
  rcases Nat.lt_trichotomy (skipClosing t j) jx with h | h | h
  · exact absurd (hrun _ h1 h) (h4 (by omega))
  · exact h
  · exact absurd (h3 jx hge h) (hstop (by omega))

theorem spacing_mem (t : Text) (idx : Nat) :
    idx ∈ (find_spacing_around_punctuation t).map (fun is => is.index) ↔
      idx < t.length ∧ spacingPunctCond t idx = true := by
  simp only [find_spacing_around_punctuation, List.map_map, List.mem_map, List.mem_filter,
    List.mem_range, Function.comp]
  constructor
  · rintro ⟨i, ⟨hi, hc⟩, heq⟩
    have : (mkIssue t IKind.spacing i [t.getD i ' '] 1).index = i := rfl
    rw [this] at heq
    subst heq
    exact ⟨hi, hc⟩
  · rintro ⟨hi, hc⟩
    exact ⟨idx, ⟨hi, hc⟩, rfl⟩

theorem spacingPunctCond_iff (t : Text) (idx : Nat) :
    spacingPunctCond t idx = true ↔
      (t.getD idx ' ') ∈ punctList ∧ (get_math_mask t).getD idx false = false ∧
      ((0 < idx ∧ t.getD (idx - 1) ' ' = ' ') ∨
       (skipClosing t (idx + 1) < t.length ∧
        (t.getD (skipClosing t (idx + 1)) ' ') ∉ ([' ', '\t', '\n', '\r'] : List Char))) := by
  rw [spacingPunctCond]
  simp only [Bool.and_eq_true, Bool.or_eq_true, decide_eq_true_eq, Bool.not_eq_true',
    decide_eq_false_iff_not]
  tauto

/-- C3, counterexample: on `"a,,'"` the code flags only offset 1 (the comma
followed by a comma) — the condition the claim states would not flag it
(the next character is itself punctuation) but would flag offset 2 instead
(the claim's closer set omits the apostrophe, so it sees a non-whitespace
character after the second comma, while the code skips the apostrophe and
reaches the end of the text). -/
theorem c3_counterexample :
    (find_spacing_around_punctuation (strL "a,,'")).map (fun is => is.index) = [1] ∧
    (strL "a,,'").getD 1 ' ' ∈ punctList ∧
    (get_math_mask (strL "a,,'")).getD 1 false = false ∧
    spacingClaimCond (strL "a,,'") 1 = false ∧
    (strL "a,,'").getD 2 ' ' ∈ punctList ∧
    (get_math_mask (strL "a,,'")).getD 2 false = false ∧
    spacingClaimCond (strL "a,,'") 2 = true := by decide

/-- C3, amended: a punctuation occurrence outside math is flagged iff it is
immediately preceded by a literal space, or, after skipping the run of
characters from the source's closer set `")']}>”’` (which includes the
ASCII apostrophe), the next non-skipped character exists and is not
whitespace — whether or not it is itself punctuation. -/
theorem c3_spacing_condition (t : Text) (idx : Nat)
    (hp : (t.getD idx ' ') ∈ punctList) (hidx : idx < t.length)
    (hm : (get_math_mask t).getD idx false = false) :
    idx ∈ (find_spacing_around_punctuation t).map (fun is => is.index) ↔
      ((0 < idx ∧ t.getD (idx - 1) ' ' = ' ') ∨
       ∃ j, idx + 1 ≤ j ∧ j < t.length ∧
         (∀ m, idx + 1 ≤ m → m < j → (t.getD m ' ') ∈ closing_chars) ∧
         (t.getD j ' ') ∉ closing_chars ∧
         (t.getD j ' ') ∉ ([' ', '\t', '\n', '\r'] : List Char)) := by
  rw [spacing_mem]
  constructor
  · rintro ⟨_, hc⟩
    obtain ⟨_, _, hor⟩ := (spacingPunctCond_iff t idx).mp hc
    rcases hor with h | ⟨hlt, hws⟩
    · exact Or.inl h
    · refine Or.inr ⟨skipClosing t (idx + 1), ?_, hlt, ?_, ?_, hws⟩
      · exact (skipClosing_spec t (idx + 1) (by omega)).1
      · exact (skipClosing_spec t (idx + 1) (by omega)).2.2.1
      · exact (skipClosing_spec t (idx + 1) (by omega)).2.2.2 hlt
  · intro hor
    refine ⟨hidx, (spacingPunctCond_iff t idx).mpr ⟨hp, hm, ?_⟩⟩
    rcases hor with h | ⟨j, hge, hlt, hrun, hstop, hws⟩
    · exact Or.inl h
    · right
      have heq : skipClosing t (idx + 1) = j :=
        skipClosing_unique t (idx + 1) j (by omega) hge (by omega) hrun (fun _ => hstop)
      rw [heq]
      exact ⟨hlt, hws⟩

/-- C3, witness for `c3_spacing_condition` on `"a,b"` at offset 1: the comma
is directly followed by `b`, so it is flagged. -/
theorem c3_witness :
    1 ∈ (find_spacing_around_punctuation (strL "a,b")).map (fun is => is.index) :=
  (c3_spacing_condition (strL "a,b") 1 (by decide) (by decide) (by decide)).mpr
    (Or.inr ⟨2, by omega, by decide, fun m hm1 hm2 => by omega, by decide, by decide⟩)

/-! Claim C5: no cross-contamination between math and text detectors. -/

theorem dedupAux_subset : ∀ (seen : List (IKind × Nat)) (l : List Issue) (x : Issue),
    x ∈ dedupAux seen l → x ∈ l := by
  intro seen l
  induction l generalizing seen with
  | nil => intro x hx; simp [dedupAux] at hx
  | cons a l ih =>
    intro x hx
    rw [dedupAux] at hx
    by_cases h : (a.kind, a.index) ∈ seen
    · rw [if_pos h] at hx
      exact List.mem_cons_of_mem a (ih seen x hx)
    · rw [if_neg h] at hx
      rcases List.mem_cons.mp hx with h' | h'
      · exact h' ▸ List.mem_cons_self a l
      · exact List.mem_cons_of_mem a (ih _ x h')

theorem analyze_mem_concat (t : Text) (is : Issue) (h : is ∈ analyze_text t) :
    is ∈ concatIssues t := by
  rw [analyze_text] at h
  have hperm := List.perm_insertionSort byIndex (dedupAux [] (concatIssues t))
  exact dedupAux_subset [] _ is (hperm.mem_iff.mp h)

theorem mem_find_digits (t : Text) (is : Issue) (h : is ∈ find_digits_outside_math t) :
    is.kind = IKind.digit ∧ is.index < t.length ∧
    isDigitCh ((mask_math_regions t).getD is.index ' ') = true := by
  rw [find_digits_outside_math] at h
  obtain ⟨i, hi, heq⟩ := List.mem_map.mp h
  obtain ⟨hr, hc⟩ := List.mem_filter.mp hi
  subst heq
  exact ⟨rfl, by simpa using hr, hc⟩

theorem mem_find_letters (t : Text) (is : Issue)
    (h : is ∈ find_single_letters_outside_math t) :
    is.kind = IKind.letter ∧ is.index < t.length ∧
    letterOK ((mask_math_regions t).getD is.index ' ') = true := by
  rw [find_single_letters_outside_math] at h
  obtain ⟨i, hi, heq⟩ := List.mem_map.mp h
  obtain ⟨hr, hc⟩ := List.mem_filter.mp hi
  subst heq
  refine ⟨rfl, by simpa using hr, ?_⟩
  rw [letterCondAt] at hc
  simp only [Bool.and_eq_true] at hc
  exact hc.1.1

theorem commaScanAux_range (t : Text) : ∀ (f : Nat) (stack : List GKind) (i p : Nat),
    p ∈ commaScanAux t f stack i → i ≤ p ∧ p < i + f := by
  intro f
  induction f with
  | zero => intro stack i p hp; simp [commaScanAux] at hp
  | succ f ih =>
    intro stack i p hp
    rw [commaScanAux] at hp
    rcases List.mem_append.mp hp with h | h
    · by_cases hc : (t.getD i ' ' = ',' ∨ t.getD i ' ' = ':') ∧ stepStack t stack i = []
      · rw [if_pos hc] at h
        have : p = i := by simpa using h
        omega
      · rw [if_neg hc] at h
        simp at h
    · have := ih (stepStack t stack i) (i + 1) p h
      omega

theorem mkIssue_index (t : Text) (k : IKind) (idx : Nat) (c : Text) (ln : Nat) :
    (mkIssue t k idx c ln).index = idx := rfl

theorem mem_find_commas (t : Text) (is : Issue)
    (h : is ∈ find_commas_colons_inside_math t) :
    is.kind = IKind.punct ∧
    ∃ r ∈ get_math_regions t, r.1 ≤ is.index ∧ is.index < r.2 := by
  rw [find_commas_colons_inside_math] at h
  obtain ⟨r, hr, hmem⟩ := List.mem_flatMap.mp h
  obtain ⟨p, hp, heq⟩ := List.mem_map.mp hmem
  subst heq
  obtain ⟨hge, hlt⟩ := commaScanAux_range t (r.2 - r.1) [] r.1 p hp
  refine ⟨rfl, r, hr, ?_, ?_⟩ <;> rw [mkIssue_index] <;> omega

theorem mem_find_spacingP (t : Text) (is : Issue)
    (h : is ∈ find_spacing_around_punctuation t) : is.kind = IKind.spacing := by
  rw [find_spacing_around_punctuation] at h
  obtain ⟨i, _, heq⟩ := List.mem_map.mp h
  subst heq
  rfl

theorem mem_find_spacingD (t : Text) (is : Issue)
    (h : is ∈ find_spacing_inside_delimiters t) : is.kind = IKind.spacing := by
  rw [find_spacing_inside_delimiters] at h
  obtain ⟨i, _, heq⟩ := List.mem_map.mp h
  subst heq
  rfl

theorem mem_find_dbl (t : Text) (is : Issue)
    (h : is ∈ find_double_backslashes t) : is.kind = IKind.backslash := by
  rw [find_double_backslashes] at h
  obtain ⟨i, _, heq⟩ := List.mem_map.mp h
  subst heq
  rfl

theorem regions_blank (t : Text) (r : Nat × Nat) (hr : r ∈ get_math_regions t) :
    ∀ i, r.1 ≤ i → i < r.2 →
      (mask_math_regions t).getD i ' ' = ' ' ∨ (mask_math_regions t).getD i ' ' = '\n' := by
  intro i h1 h2
  rw [get_math_regions] at hr
  obtain ⟨⟨k, s, e⟩, hk, heq⟩ := List.mem_map.mp hr
  have hs : r.1 = s := congrArg Prod.fst heq.symm
  have he : r.2 = e := congrArg Prod.snd heq.symm
  rw [hs] at h1
  rw [he] at h2
  exact runPatterns_blank PATS t k s e hk i h1 h2

/-- C5: no digit or letter issue of `analyze_text` lies inside any math
region, and every punct issue lies inside some math region. -/
theorem c5_no_cross_contamination (t : Text) (is : Issue) (h : is ∈ analyze_text t) :
    ((is.kind = IKind.digit ∨ is.kind = IKind.letter) →
      ∀ r ∈ get_math_regions t, ¬(r.1 ≤ is.index ∧ is.index < r.2)) ∧
    (is.kind = IKind.punct →
      ∃ r ∈ get_math_regions t, r.1 ≤ is.index ∧ is.index < r.2) := by
  have hc := analyze_mem_concat t is h
  rw [concatIssues] at hc
  simp only [List.append_assoc, List.mem_append] at hc
  rcases hc with hd | hl | hp | hs1 | hs2 | hb
  · obtain ⟨hk, _, hdig⟩ := mem_find_digits t is hd
    constructor
    · rintro _ r hr ⟨h1, h2⟩
      rcases regions_blank t r hr is.index h1 h2 with hbl | hbl <;>
        rw [hbl] at hdig <;> exact absurd hdig (by decide)
    · intro hpk
      rw [hk] at hpk
      exact absurd hpk (by decide)
  · obtain ⟨hk, _, hlet⟩ := mem_find_letters t is hl
    constructor
    · rintro _ r hr ⟨h1, h2⟩
      rcases regions_blank t r hr is.index h1 h2 with hbl | hbl <;>
        rw [hbl] at hlet <;> exact absurd hlet (by decide)
    · intro hpk
      rw [hk] at hpk
      exact absurd hpk (by decide)
  · obtain ⟨hk, hreg⟩ := mem_find_commas t is hp
    constructor
    · rintro hdl
      rw [hk] at hdl
      rcases hdl with h' | h' <;> exact absurd h' (by decide)
    · intro _
      exact hreg
  · have hk := mem_find_spacingP t is hs1
    constructor
    · rintro hdl
      rw [hk] at hdl
      rcases hdl with h' | h' <;> exact absurd h' (by decide)
    · intro hpk
      rw [hk] at hpk
      exact absurd hpk (by decide)
  · have hk := mem_find_spacingD t is hs2
    constructor
    · rintro hdl
      rw [hk] at hdl
      rcases hdl with h' | h' <;> exact absurd h' (by decide)
    · intro hpk
      rw [hk] at hpk
      exact absurd hpk (by decide)
  · have hk := mem_find_dbl t is hb
    constructor
    · rintro hdl
      rw [hk] at hdl
      rcases hdl with h' | h' <;> exact absurd h' (by decide)
    · intro hpk
      rw [hk] at hpk
      exact absurd hpk (by decide)

/-- C5, witness: on `"$a,b$ 1"` the punct issue at offset 2 lies inside
the recorded math region `[0, 5)`. -/
theorem c5_witness :
    ∃ r ∈ get_math_regions (strL "$a,b$ 1"), r.1 ≤ 2 ∧ 2 < r.2 :=
  (c5_no_cross_contamination (strL "$a,b$ 1")
    { kind := IKind.punct, index := 2, line := 1, col := 3, ch := [','],
      line_text := strL "$a,b$ 1", len := 1 } (by decide)).2 rfl

/-! Claim C6: the aggregation pipeline of `analyze_text`. -/

theorem dedupAux_distinct : ∀ (seen : List (IKind × Nat)) (l : List Issue),
    (dedupAux seen l).Pairwise (fun a b => ¬(a.kind = b.kind ∧ a.index = b.index)) ∧
    (∀ x ∈ dedupAux seen l, (x.kind, x.index) ∉ seen) := by
  intro seen l
  induction l generalizing seen with
  | nil => exact ⟨List.Pairwise.nil, by simp [dedupAux]⟩
  | cons a l ih =>
    rw [dedupAux]
    by_cases h : (a.kind, a.index) ∈ seen
    · rw [if_pos h]
      exact ih seen
    · rw [if_neg h]
      obtain ⟨hpw, hns⟩ := ih ((a.kind, a.index) :: seen)
      constructor
      · refine List.pairwise_cons.mpr ⟨?_, hpw⟩
        intro b hb hab
        have := hns b hb
        apply this
        rw [← hab.1, ← hab.2]
        exact List.mem_cons_self _ _
      · intro x hx
        rcases List.mem_cons.mp hx with h' | h'
        · subst h'; exact h
        · intro hxs
          exact hns x h' (List.mem_cons_of_mem _ hxs)

theorem orderedInsert_filter_key (a : Issue) (l : List Issue) (k : Nat) :
    (List.orderedInsert byIndex a l).filter (fun is => decide (is.index = k)) =
      if a.index = k then a :: l.filter (fun is => decide (is.index = k))
      else l.filter (fun is => decide (is.index = k)) := by
  induction l with
  | nil =>
    rw [List.orderedInsert_nil]
    by_cases h : a.index = k
    · rw [if_pos h]
      rw [List.filter_cons_of_pos (by simpa using h)]
    · rw [if_neg h]
      rw [List.filter_cons_of_neg (by simpa using h)]
  | cons b l ih =>
    rw [List.orderedInsert]
    by_cases hr : byIndex a b
    · rw [if_pos hr]
      by_cases h : a.index = k
      · rw [if_pos h, List.filter_cons_of_pos (by simpa using h)]
      · rw [if_neg h, List.filter_cons_of_neg (by simpa using h)]
    · rw [if_neg hr]
      have hb : b.index < a.index := by
        rw [byIndex] at hr
        omega
      by_cases h : a.index = k
      · rw [if_pos h]
        have hbk : ¬(b.index = k) := by omega
        rw [List.filter_cons_of_neg (by simpa using hbk),
            List.filter_cons_of_neg (by simpa using hbk), ih, if_pos h]
      · rw [if_neg h]
        by_cases hbk : b.index = k
        · rw [List.filter_cons_of_pos (by simpa using hbk),
              List.filter_cons_of_pos (by simpa using hbk), ih, if_neg h]
        · rw [List.filter_cons_of_neg (by simpa using hbk),
              List.filter_cons_of_neg (by simpa using hbk), ih, if_neg h]

theorem insertionSort_filter_key (l : List Issue) (k : Nat) :
    (List.insertionSort byIndex l).filter (fun is => decide (is.index = k)) =
      l.filter (fun is => decide (is.index = k)) := by
  induction l with
  | nil => rfl
  | cons a l ih =>
    rw [List.insertionSort, orderedInsert_filter_key]
    by_cases h : a.index = k
    · rw [if_pos h, ih, List.filter_cons_of_pos (by simpa using h)]
    · rw [if_neg h, ih, List.filter_cons_of_neg (by simpa using h)]

/-- C6: `analyze_text` permutes the deduplicated concatenation of the six
detector outputs (in their fixed order), is sorted by ascending index, has
no two issues with the same `(kind, index)`, and the sort is stable: for
every index value `k` the sub-list of issues at `k` is exactly the
(detector-ordered) sub-list of the deduplicated concatenation at `k`. -/
theorem c6_analyze_pipeline (t : Text) :
    (analyze_text t).Perm (dedupAux [] (concatIssues t)) ∧
    (analyze_text t).Pairwise byIndex ∧
    (analyze_text t).Pairwise (fun a b => ¬(a.kind = b.kind ∧ a.index = b.index)) ∧
    ∀ k, (analyze_text t).filter (fun is => decide (is.index = k)) =
      (dedupAux [] (concatIssues t)).filter (fun is => decide (is.index = k)) := by
  refine ⟨?_, ?_, ?_, ?_⟩
  · exact List.perm_insertionSort byIndex _
  · exact List.sorted_insertionSort byIndex _
  · exact ((List.perm_insertionSort byIndex _).pairwise_iff
      (fun h hk => h ⟨hk.1.symm, hk.2.symm⟩)).mpr
      (dedupAux_distinct [] (concatIssues t)).1
  · intro k
    exact insertionSort_filter_key _ k

/-! Claim C9: `\(...\)` and `\[...\]` regions with bracket-free interiors. -/

theorem openAt_brk_inv (t : Text) (i olen : Nat) (close : Text)
    (h : openAt Pat.brk t i = some (olen, close)) :
    olen = 2 ∧ close = strL "\\]" ∧ prefixAt (strL "\\[") t i = true := by
  simp only [openAt] at h
  split at h
  · injection h with h
    exact ⟨(congrArg Prod.fst h).symm, (congrArg Prod.snd h).symm, by assumption⟩
  · exact absurd h (by simp)

theorem openAt_par_inv (t : Text) (i olen : Nat) (close : Text)
    (h : openAt Pat.par t i = some (olen, close)) :
    olen = 2 ∧ close = strL "\\)" ∧ prefixAt (strL "\\(") t i = true := by
  simp only [openAt] at h
  split at h
  · injection h with h
    exact ⟨(congrArg Prod.fst h).symm, (congrArg Prod.snd h).symm, by assumption⟩
  · exact absurd h (by simp)

/-- Structure of a region recorded by the `\[...\]` or `\(...\)` pattern:
its four delimiter characters are present in the working text of the stage
that found it, hence in every earlier working text. -/
theorem runPatterns_struct (pats : List (Nat × Pat)) :
    ∀ (work : Text),
      (∀ q ∈ pats, q.1 = 1 → q.2 = Pat.brk) →
      (∀ q ∈ pats, q.1 = 2 → q.2 = Pat.par) →
      ∀ k s e, (k, s, e) ∈ runPatternsAux pats work → k = 1 ∨ k = 2 →
        s + 4 ≤ e ∧
        work.getD s ' ' = '\\' ∧
        work.getD (s + 1) ' ' = (if k = 1 then '[' else '(') ∧
        work.getD (e - 2) ' ' = '\\' ∧
        work.getD (e - 1) ' ' = (if k = 1 then ']' else ')') := by
  induction pats with
  | nil => intro work _ _ k s e h; simp [runPatternsAux] at h
  | cons q rest ih =>
    obtain ⟨kq, p⟩ := q
    intro work h1 h2 k s e h hk
    rw [runPatternsAux_cons] at h
    rcases List.mem_append.mp h with h | h
    · obtain ⟨r, hr, heq⟩ := List.mem_map.mp h
      have hkk : k = kq := congrArg (fun x => x.1) heq.symm
      have hss : s = r.1 := congrArg (fun x => x.2.1) heq.symm
      have hee : e = r.2 := congrArg (fun x => x.2.2) heq.symm
      subst hss; subst hee
      obtain ⟨olen, close, ho, ce, hf, hend⟩ := finditer_mem p work r.1 r.2 (by simpa using hr)
      have hqmem : (kq, p) ∈ (kq, p) :: rest := List.mem_cons_self _ _
      rcases hk with hk1 | hk2
      · have hp : p = Pat.brk := h1 (kq, p) hqmem (by omega)
        subst hp
        obtain ⟨ho2, hcl, hpre⟩ := openAt_brk_inv work r.1 olen close ho
        subst ho2; subst hcl
        obtain ⟨hlt1, hca, hcb⟩ := prefixAt_two '\\' '[' work r.1 hpre
        obtain ⟨hge, hfit, hprec⟩ := findCloseFrom_ge work (strL "\\]") (r.1 + 2) ce hf
        obtain ⟨hlt2, hcc, hcd⟩ := prefixAt_two '\\' ']' work ce (hprec)
        simp only [if_pos hk1]
        have hlen2 : (strL "\\]").length = 2 := by decide
        rw [hlen2] at hend
        refine ⟨by omega, hca, hcb, ?_, ?_⟩
        · have : r.2 - 2 = ce := by omega
          rw [this]; exact hcc
        · have : r.2 - 1 = ce + 1 := by omega
          rw [this]; exact hcd
      · have hp : p = Pat.par := h2 (kq, p) hqmem (by omega)
        subst hp
        obtain ⟨ho2, hcl, hpre⟩ := openAt_par_inv work r.1 olen close ho
        subst ho2; subst hcl
        obtain ⟨hlt1, hca, hcb⟩ := prefixAt_two '\\' '(' work r.1 hpre
        obtain ⟨hge, hfit, hprec⟩ := findCloseFrom_ge work (strL "\\)") (r.1 + 2) ce hf
        obtain ⟨hlt2, hcc, hcd⟩ := prefixAt_two '\\' ')' work ce (hprec)
        have hknot : ¬(k = 1) := by omega
        simp only [if_neg hknot]
        have hlen2 : (strL "\\)").length = 2 := by decide
        rw [hlen2] at hend
        refine ⟨by omega, hca, hcb, ?_, ?_⟩
        · have : r.2 - 2 = ce := by omega
          rw [this]; exact hcc
        · have : r.2 - 1 = ce + 1 := by omega
          rw [this]; exact hcd
    · have hmask := ih (maskMatches work (finditer p work))
        (fun q hq => h1 q (List.mem_cons_of_mem _ hq))
        (fun q hq => h2 q (List.mem_cons_of_mem _ hq)) k s e h hk
      obtain ⟨hse, hc1, hc2, hc3, hc4⟩ := hmask
      refine ⟨hse, ?_, ?_, ?_, ?_⟩
      · rcases maskMatches_stable work (finditer p work) s ' ' with hst | hst
        · rw [← hst]; exact hc1
        · rw [hst] at hc1; exact absurd hc1 (by decide)
      · rcases maskMatches_stable work (finditer p work) (s + 1) ' ' with hst | hst
        · rw [← hst]; exact hc2
        · rw [hst] at hc2
          by_cases hk1 : k = 1
          · rw [if_pos hk1] at hc2; exact absurd hc2 (by decide)
          · rw [if_neg hk1] at hc2; exact absurd hc2 (by decide)
      · rcases maskMatches_stable work (finditer p work) (e - 2) ' ' with hst | hst
        · rw [← hst]; exact hc3
        · rw [hst] at hc3; exact absurd hc3 (by decide)
      · rcases maskMatches_stable work (finditer p work) (e - 1) ' ' with hst | hst
        · rw [← hst]; exact hc4
        · rw [hst] at hc4
          by_cases hk1 : k = 1
          · rw [if_pos hk1] at hc4; exact absurd hc4 (by decide)
          · rw [if_neg hk1] at hc4; exact absurd hc4 (by decide)

theorem commaScanAux_split (t : Text) :
    ∀ (f1 f2 : Nat) (stack : List GKind) (i : Nat),
      commaScanAux t (f1 + f2) stack i =
        commaScanAux t f1 stack i ++ commaScanAux t f2 (scanStack t f1 stack i) (i + f1) := by
  intro f1
  induction f1 with
  | zero =>
    intro f2 stack i
    simp [commaScanAux, scanStack]
  | succ f1 ih =>
    intro f2 stack i
    have harith : f1 + 1 + f2 = (f1 + f2) + 1 := by omega
    rw [harith, commaScanAux, commaScanAux, ih f2 (stepStack t stack i) (i + 1)]
    rw [scanStack]
    have harith2 : i + 1 + f1 = i + (f1 + 1) := by omega
    rw [harith2, List.append_assoc]

theorem scanStack_split (t : Text) :
    ∀ (f1 f2 : Nat) (stack : List GKind) (i : Nat),
      scanStack t (f1 + f2) stack i =
        scanStack t f2 (scanStack t f1 stack i) (i + f1) := by
  intro f1
  induction f1 with
  | zero =>
    intro f2 stack i
    simp [scanStack]
  | succ f1 ih =>
    intro f2 stack i
    have harith : f1 + 1 + f2 = (f1 + f2) + 1 := by omega
    rw [harith, scanStack, scanStack, ih f2 (stepStack t stack i) (i + 1)]
    have harith2 : i + 1 + f1 = i + (f1 + 1) := by omega
    rw [harith2]

theorem stepStack_ne_nil (t : Text) (stack : List GKind) (i : Nat)
    (hs : stack ≠ []) (hc : t.getD i ' ' ∉ ([')', ']', '}'] : List Char)) :
    stepStack t stack i ≠ [] := by
  rw [stepStack]
  split_ifs with h1 h2 h3 h4 h5 h6
  · simp
  · simp
  · simp
  · exact absurd (by rw [h4.1]; simp) hc
  · exact absurd (by rw [h5]; simp) hc
  · exact absurd (by rw [h6]; simp) hc
  · exact hs

theorem stepStack_open_ne_nil (t : Text) (stack : List GKind) (i : Nat)
    (h : t.getD i ' ' = '(' ∨ t.getD i ' ' = '[') :
    stepStack t stack i ≠ [] := by
  rw [stepStack]
  split_ifs with h1 h2 h3 h4 h5 h6
  · simp
  · simp
  · simp
  all_goals rcases h with h | h
  all_goals first
    | exact absurd h h2
    | exact absurd h h3

theorem commaScanAux_char (t : Text) :
    ∀ (f : Nat) (stack : List GKind) (i p : Nat), p ∈ commaScanAux t f stack i →
      t.getD p ' ' = ',' ∨ t.getD p ' ' = ':' := by
  intro f
  induction f with
  | zero => intro stack i p hp; simp [commaScanAux] at hp
  | succ f ih =>
    intro stack i p hp
    rw [commaScanAux] at hp
    rcases List.mem_append.mp hp with h | h
    · by_cases hc : (t.getD i ' ' = ',' ∨ t.getD i ' ' = ':') ∧ stepStack t stack i = []
      · rw [if_pos hc] at h
        have : p = i := by simpa using h
        subst this
        exact hc.1
      · rw [if_neg hc] at h
        simp at h
    · exact ih (stepStack t stack i) (i + 1) p h

/-- The no-flag lemma: while the stack is non-empty and the text contains no
closing bracket up to `c`, the scan never flags `c`. -/
theorem commaScanAux_noflag (t : Text) :
    ∀ (f : Nat) (stack : List GKind) (i c : Nat), stack ≠ [] → i ≤ c →
      (∀ j, i ≤ j → j ≤ c → t.getD j ' ' ∉ ([')', ']', '}'] : List Char)) →
      c ∉ commaScanAux t f stack i := by
  intro f
  induction f with
  | zero => intro stack i c _ _ _; simp [commaScanAux]
  | succ f ih =>
    intro stack i c hs hic hbr hmem
    rw [commaScanAux] at hmem
    have hstep : stepStack t stack i ≠ [] :=
      stepStack_ne_nil t stack i hs (hbr i (Nat.le_refl i) hic)
    rcases List.mem_append.mp hmem with h | h
    · by_cases hc : (t.getD i ' ' = ',' ∨ t.getD i ' ' = ':') ∧ stepStack t stack i = []
      · exact hstep hc.2
      · rw [if_neg hc] at h
        simp at h
    · rcases Nat.lt_or_ge i c with hlt | hge
      · exact ih (stepStack t stack i) (i + 1) c hstep (by omega)
          (fun j hj1 hj2 => hbr j (by omega) hj2) h
      · have : i = c := by omega
        subst this
        have := commaScanAux_range t f (stepStack t stack i) (i + 1) i h
        omega

/-- C9, counterexample: in `"\( $$ , $$ \)"` the `\(...\)` pattern records
the region `[0, 13)`, whose interior contains no brace, parenthesis or
bracket characters, yet the comma at offset 6 inside it is flagged — by the
scan of the `$$...$$` region `[3, 10)`, which starts after the `(` of the
delimiter was pushed and therefore runs with an empty stack. -/
theorem c9_counterexample :
    (2, 0, 13) ∈ regionsTagged (strL "\\( $$ , $$ \\)") ∧
    (∀ j, 2 ≤ j → j + 2 < 13 →
      (strL "\\( $$ , $$ \\)").getD j ' ' ∉ (['{', '}', '(', ')', '[', ']'] : List Char)) ∧
    (find_commas_colons_inside_math (strL "\\( $$ , $$ \\)")).map (fun is => is.index) = [6] ∧
    (0 ≤ 6 ∧ 6 < 13) := by
  refine ⟨by decide, ?_, by decide, by omega⟩
  intro j h1 h2
  have h3 : j ≤ 10 := by omega
  interval_cases j <;> decide

/-- C9, amended: a `\(...\)` or `\[...\]` region whose interior contains no
brace, parenthesis or bracket characters, *and inside which no other math
region starts*, contains no flagged comma or colon: every scan that reaches
its interior has pushed the grouping opened by the region's own `(` or `[`
delimiter and so runs with a non-empty stack there.  (Without the second
condition the claim fails: `c9_counterexample`.) -/
theorem c9_protected_regions (t : Text) (k s e : Nat)
    (hreg : (k, s, e) ∈ regionsTagged t)
    (hk : k = 1 ∨ k = 2)
    (hint : ∀ j, s + 2 ≤ j → j + 2 < e →
      t.getD j ' ' ∉ (['{', '}', '(', ')', '[', ']'] : List Char))
    (hnostart : ∀ k' s' e', (k', s', e') ∈ regionsTagged t → ¬(s < s' ∧ s' < e)) :
    ∀ is ∈ find_commas_colons_inside_math t, ¬(s ≤ is.index ∧ is.index < e) := by
  intro is hmem
  rintro ⟨hge, hlt⟩
  obtain ⟨hse, hd0, hd1, hd2, hd3⟩ :=
    runPatterns_struct PATS t (by decide) (by decide) k s e hreg hk
  rw [find_commas_colons_inside_math] at hmem
  obtain ⟨r, hr, hmem2⟩ := List.mem_flatMap.mp hmem
  obtain ⟨p, hp, heq⟩ := List.mem_map.mp hmem2
  have hidx : is.index = p := by rw [← heq, mkIssue_index]
  rw [hidx] at hge hlt
  -- the flagged character is a comma or colon, so it is none of the four
  -- delimiter characters of the region
  have hchar := commaScanAux_char t (r.2 - r.1) [] r.1 p hp
  have hne0 : p ≠ s := by
    intro h; rw [h, hd0] at hchar; rcases hchar with h' | h' <;> exact absurd h' (by decide)
  have hne1 : p ≠ s + 1 := by
    intro h
    rw [h, hd1] at hchar
    by_cases hk1 : k = 1
    · rw [if_pos hk1] at hchar; rcases hchar with h' | h' <;> exact absurd h' (by decide)
    · rw [if_neg hk1] at hchar; rcases hchar with h' | h' <;> exact absurd h' (by decide)
  have hne2 : p ≠ e - 2 := by
    intro h; rw [h, hd2] at hchar; rcases hchar with h' | h' <;> exact absurd h' (by decide)
  have hne3 : p ≠ e - 1 := by
    intro h
    rw [h, hd3] at hchar
    by_cases hk1 : k = 1
    · rw [if_pos hk1] at hchar; rcases hchar with h' | h' <;> exact absurd h' (by decide)
    · rw [if_neg hk1] at hchar; rcases hchar with h' | h' <;> exact absurd h' (by decide)
  have hp2 : s + 2 ≤ p := by omega
  have hp3 : p + 2 < e := by omega
  -- the region whose scan flagged p
  obtain ⟨prange1, prange2⟩ := commaScanAux_range t (r.2 - r.1) [] r.1 p hp
  have hpr2 : p < r.2 := by omega
  obtain ⟨k', hk'⟩ : ∃ k', (k', r.1, r.2) ∈ regionsTagged t := by
    rw [get_math_regions] at hr
    obtain ⟨⟨k', s', e'⟩, hmem', heq'⟩ := List.mem_map.mp hr
    have hs' : r.1 = s' := congrArg Prod.fst heq'.symm
    have he' : r.2 = e' := congrArg Prod.snd heq'.symm
    exact ⟨k', by rw [hs', he']; exact hmem'⟩
  have hr1s : r.1 ≤ s := by
    have := hnostart k' r.1 r.2 hk'
    by_contra hgt
    exact this ⟨by omega, by omega⟩
  -- split the scan of [r.1, r.2) at s + 2
  have hf : r.2 - r.1 = (s + 2 - r.1) + (r.2 - (s + 2)) := by omega
  rw [commaScan, hf, commaScanAux_split] at hp
  rcases List.mem_append.mp hp with hfirst | hsecond
  · have := commaScanAux_range t (s + 2 - r.1) [] r.1 p hfirst
    omega
  · have hpos : r.1 + (s + 2 - r.1) = s + 2 := by omega
    rw [hpos] at hsecond
    -- the stack at position s + 2 is non-empty: the delimiter at s + 1 pushed
    have hsplit2 : s + 2 - r.1 = (s + 1 - r.1) + 1 := by omega
    have hstack : scanStack t (s + 2 - r.1) [] r.1 ≠ [] := by
      rw [hsplit2, scanStack_split]
      have hpos2 : r.1 + (s + 1 - r.1) = s + 1 := by omega
      rw [hpos2, scanStack]
      rw [scanStack]
      apply stepStack_open_ne_nil
      by_cases hk1 : k = 1
      · rw [if_pos hk1] at hd1; exact Or.inr hd1
      · rw [if_neg hk1] at hd1; exact Or.inl hd1
    refine commaScanAux_noflag t (r.2 - (s + 2)) _ (s + 2) p hstack hp2 ?_ hsecond
    intro j hj1 hj2 hjmem
    refine hint j hj1 (by omega) ?_
    rcases (by simpa using hjmem : t.getD j ' ' = ')' ∨ t.getD j ' ' = ']' ∨ t.getD j ' ' = '}')
      with h' | h' | h' <;> rw [h'] <;> simp

/-- C9, witness on `"\(a,b\) $x:y$"`: the `\(...\)` region `[0, 7)` has a
bracket-free interior and no other region starts inside it, so the punct
issue at offset 10 (the colon of the dollar region) does not lie in
`[0, 7)`. -/
theorem c9_witness : ¬(0 ≤ 10 ∧ 10 < 7) := by
  refine c9_protected_regions (strL "\\(a,b\\) $x:y$") 2 0 7 (by decide) (Or.inr rfl) ?_ ?_
    { kind := IKind.punct, index := 10, line := 1, col := 11, ch := [':'],
      line_text := strL "\\(a,b\\) $x:y$", len := 1 } (by decide)
  · intro j h1 h2
    have h3 : j ≤ 4 := by omega
    interval_cases j <;> decide
  · intro k' s' e' hmem
    have hl : regionsTagged (strL "\\(a,b\\) $x:y$") = [(2, 0, 7), (4, 8, 13)] := by decide
    rw [hl] at hmem
    rcases List.mem_cons.mp hmem with h | h
    · have hs' : s' = 0 := congrArg (fun x => x.2.1) h
      omega
    · have hs' : s' = 8 := congrArg (fun x => x.2.1) (by simpa using h : (k', s', e') = (4, 8, 13))
      omega

/-! Claim C4: `line_text` of every issue. -/

theorem takeWhile_all {α : Type} (p : α → Bool) (l : List α)
    (h : ∀ x ∈ l, p x = true) : l.takeWhile p = l := by
  induction l with
  | nil => rfl
  | cons c cs ih =>
    rw [List.takeWhile_cons, if_pos (h c (List.mem_cons_self c cs)),
      ih (fun x hx => h x (List.mem_cons_of_mem c hx))]

theorem dropWhile_all {α : Type} (p : α → Bool) (l : List α)
    (h : ∀ x ∈ l, p x = true) : l.dropWhile p = [] := by
  induction l with
  | nil => rfl
  | cons c cs ih =>
    rw [List.dropWhile_cons, if_pos (h c (List.mem_cons_self c cs)),
      ih (fun x hx => h x (List.mem_cons_of_mem c hx))]

theorem takeWhile_all_append {α : Type} (p : α → Bool) (l1 : List α) (c : α) (l2 : List α)
    (h : ∀ x ∈ l1, p x = true) (hc : p c = false) :
    (l1 ++ c :: l2).takeWhile p = l1 := by
  induction l1 with
  | nil => simp [List.takeWhile_cons, hc]
  | cons a l1 ih =>
    rw [List.cons_append, List.takeWhile_cons, if_pos (h a (List.mem_cons_self a l1)),
      ih (fun x hx => h x (List.mem_cons_of_mem a hx))]

theorem dropWhile_all_append {α : Type} (p : α → Bool) (l1 : List α) (c : α) (l2 : List α)
    (h : ∀ x ∈ l1, p x = true) (hc : p c = false) :
    (l1 ++ c :: l2).dropWhile p = c :: l2 := by
  induction l1 with
  | nil => simp [List.dropWhile_cons, hc]
  | cons a l1 ih =>
    rw [List.cons_append, List.dropWhile_cons, if_pos (h a (List.mem_cons_self a l1)),
      ih (fun x hx => h x (List.mem_cons_of_mem a hx))]

theorem takeWhile_append_mid {α : Type} (p : α → Bool) (l1 : List α) (c : α) (l2 : List α)
    (hc : p c = false) :
    (l1 ++ c :: l2).takeWhile p = l1.takeWhile p := by
  induction l1 with
  | nil => simp [List.takeWhile_cons, hc]
  | cons a l1 ih =>
    rw [List.cons_append, List.takeWhile_cons, List.takeWhile_cons]
    by_cases h : p a
    · rw [if_pos h, if_pos h, ih]
    · rw [if_neg h, if_neg h]

theorem takeWhile_eq_nil_all {α : Type} (p : α → Bool) (l : List α)
    (h : ∀ x ∈ l, p x = false) : l.takeWhile p = [] := by
  cases l with
  | nil => rfl
  | cons c cs =>
    rw [List.takeWhile_cons, if_neg (by rw [h c (List.mem_cons_self c cs)]; simp)]

theorem nlAux_nil_of_no_nl (t : Text) (h : '\n' ∉ t) : ∀ i, nlAux t i = [] := by
  induction t with
  | nil => intro i; rfl
  | cons c cs ih =>
    intro i
    rw [nlAux, if_neg (fun hc => h (by rw [← hc]; exact List.mem_cons_self c cs))]
    exact ih (fun hc => h (List.mem_cons_of_mem c hc)) (i + 1)

theorem nlAux_append_nl (pre post : Text) (hpre : '\n' ∉ pre) : ∀ i,
    nlAux (pre ++ '\n' :: post) i = (pre.length + i) :: nlAux post (pre.length + i + 1) := by
  induction pre with
  | nil => intro i; simp [nlAux]
  | cons c pre ih =>
    intro i
    rw [List.cons_append, nlAux,
      if_neg (fun hc => hpre (by rw [← hc]; exact List.mem_cons_self c pre)),
      ih (fun hc => hpre (List.mem_cons_of_mem c hc)) (i + 1)]
    have h1 : pre.length + (i + 1) = (c :: pre).length + i := by simp; omega
    rw [h1]

theorem nlAux_shift (t : Text) : ∀ i, nlAux t i = (nlAux t 0).map (fun x => x + i) := by
  induction t with
  | nil => intro i; rfl
  | cons c cs ih =>
    intro i
    by_cases h : c = '\n'
    · rw [nlAux, if_pos h]
      conv_rhs => rw [nlAux, if_pos h]
      rw [List.map_cons, ih (i + 1), ih 1, List.map_map]
      refine congrArg₂ List.cons (by omega) (List.map_congr_left ?_)
      intro x _
      simp only [Function.comp]
      omega
    · rw [nlAux, if_neg h]
      conv_rhs => rw [nlAux, if_neg h]
      rw [ih (i + 1), ih 1, List.map_map]
      refine List.map_congr_left ?_
      intro x _
      simp only [Function.comp]
      omega

theorem line_starts_append (pre post : Text) (hpre : '\n' ∉ pre) :
    build_line_starts (pre ++ '\n' :: post) =
      0 :: (build_line_starts post).map (fun x => x + (pre.length + 1)) := by
  rw [build_line_starts, build_line_starts, nlAux_append_nl pre post hpre 0,
    nlAux_shift post (pre.length + 0 + 1)]
  simp only [List.map_cons, List.map_map]
  refine congrArg (List.cons 0) (congrArg₂ List.cons (by omega) (List.map_congr_left ?_))
  intro x _
  simp only [Function.comp]
  omega

theorem splitlinesAux_nil_eq (f : Nat) (t : Text) (ht : t ≠ [])
    (hr : t.dropWhile (fun c => !pyBoundary c) = []) :
    splitlinesAux (f + 1) t = [t.takeWhile (fun c => !pyBoundary c)] := by
  rw [splitlinesAux, if_neg ht, hr]

theorem splitlinesAux_cons_eq (f : Nat) (t : Text) (ht : t ≠ []) (c : Char) (r : Text)
    (hr : t.dropWhile (fun c => !pyBoundary c) = c :: r) :
    splitlinesAux (f + 1) t =
      if c = '\r' ∧ r.getD 0 ' ' = '\n' then
        (t.takeWhile (fun c => !pyBoundary c)) :: splitlinesAux f (r.drop 1)
      else (t.takeWhile (fun c => !pyBoundary c)) :: splitlinesAux f r := by
  rw [splitlinesAux, if_neg ht, hr]

theorem splitlinesAux_fuel : ∀ f g (t : Text), t.length < f → t.length < g →
    splitlinesAux f t = splitlinesAux g t := by
  intro f
  induction f with
  | zero => intro g t hf; omega
  | succ f ih =>
    intro g t hf hg
    cases g with
    | zero => omega
    | succ g =>
      by_cases ht : t = []
      · rw [splitlinesAux, splitlinesAux, if_pos ht, if_pos ht]
      · have hle : (t.dropWhile (fun c => !pyBoundary c)).length ≤ t.length :=
          dropWhile_length_le _ t
        rcases hr : t.dropWhile (fun c => !pyBoundary c) with _ | ⟨c, r⟩
        · rw [splitlinesAux_nil_eq f t ht hr, splitlinesAux_nil_eq g t ht hr]
        · rw [hr] at hle
          simp only [List.length_cons] at hle
          rw [splitlinesAux_cons_eq f t ht c r hr, splitlinesAux_cons_eq g t ht c r hr]
          by_cases hcr : c = '\r' ∧ r.getD 0 ' ' = '\n'
          · rw [if_pos hcr, if_pos hcr]
            have : (r.drop 1).length ≤ r.length := by rw [List.length_drop]; omega
            rw [ih g (r.drop 1) (by omega) (by omega)]
          · rw [if_neg hcr, if_neg hcr]
            rw [ih g r (by omega) (by omega)]

theorem boundary_only_nl (t : Text) (hb : ∀ c ∈ t, pyBoundary c = true → c = '\n') :
    ∀ c ∈ t, c ≠ '\n' → (fun c => !pyBoundary c) c = true := by
  intro c hc hne
  by_cases h : pyBoundary c
  · exact absurd (hb c hc h) hne
  · simpa using h

theorem splitlines_single (t : Text) (hb : ∀ c ∈ t, pyBoundary c = true → c = '\n')
    (hnl : '\n' ∉ t) (hne : t ≠ []) : splitlines t = [t] := by
  have hall : ∀ c ∈ t, (fun c => !pyBoundary c) c = true :=
    fun c hc => boundary_only_nl t hb c hc (fun h => hnl (by rw [← h]; exact hc))
  rw [splitlines, splitlinesAux_nil_eq t.length t hne (dropWhile_all _ t hall),
    takeWhile_all _ t hall]

theorem splitlines_step (pre post : Text)
    (hb : ∀ c ∈ pre ++ '\n' :: post, pyBoundary c = true → c = '\n')
    (hpre : '\n' ∉ pre) :
    splitlines (pre ++ '\n' :: post) = pre :: splitlines post := by
  have hall : ∀ c ∈ pre, (fun c => !pyBoundary c) c = true := by
    intro c hc
    refine boundary_only_nl _ hb c ?_ (fun h => hpre (by rw [← h]; exact hc))
    exact List.mem_append.mpr (Or.inl hc)
  have hnlb : (fun c => !pyBoundary c) '\n' = false := by decide
  rw [splitlines,
    splitlinesAux_cons_eq (pre ++ '\n' :: post).length (pre ++ '\n' :: post) (by simp)
      '\n' post (dropWhile_all_append _ pre '\n' post hall hnlb),
    if_neg (by intro hc; exact absurd hc.1 (by decide)),
    takeWhile_all_append _ pre '\n' post hall hnlb]
  refine congrArg (List.cons pre) ?_
  rw [splitlines]
  apply splitlinesAux_fuel
  · simp only [List.length_append, List.length_cons]
    omega
  · omega

theorem exists_first_nl (t : Text) (h : '\n' ∈ t) :
    ∃ pre post, t = pre ++ '\n' :: post ∧ '\n' ∉ pre := by
  induction t with
  | nil => simp at h
  | cons c cs ih =>
    by_cases hc : c = '\n'
    · exact ⟨[], cs, by rw [hc]; rfl, by simp⟩
    · have hcs : '\n' ∈ cs := by
        rcases List.mem_cons.mp h with h' | h'
        · exact absurd h'.symm hc
        · exact h'
      obtain ⟨pre, post, heq, hpre⟩ := ih hcs
      refine ⟨c :: pre, post, by rw [List.cons_append, heq], ?_⟩
      intro hmem
      rcases List.mem_cons.mp hmem with h' | h'
      · exact hc h'.symm
      · exact hpre h'

theorem claimLineText_no_nl (t : Text) (idx : Nat) (hnl : '\n' ∉ t) :
    claimLineText t idx = t := by
  rw [claimLineText]
  have h1 : ∀ c ∈ (t.take idx).reverse, (fun c => decide (c ≠ '\n')) c = true := by
    intro c hc
    simp only [decide_eq_true_eq]
    intro h
    exact hnl (h ▸ (List.take_sublist idx t).subset (List.mem_reverse.mp hc))
  have h2 : ∀ c ∈ t.drop idx, (fun c => decide (c ≠ '\n')) c = true := by
    intro c hc
    simp only [decide_eq_true_eq]
    intro h
    exact hnl (h ▸ (List.drop_sublist idx t).subset hc)
  rw [takeWhile_all _ _ h1, List.reverse_reverse, takeWhile_all _ _ h2,
    List.take_append_drop]

theorem claimLineText_left (pre post : Text) (idx : Nat) (hpre : '\n' ∉ pre)
    (hidx : idx ≤ pre.length) :
    claimLineText (pre ++ '\n' :: post) idx = pre := by
  rw [claimLineText, List.take_append_of_le_length hidx, List.drop_append_of_le_length hidx]
  have h1 : ∀ c ∈ (pre.take idx).reverse, (fun c => decide (c ≠ '\n')) c = true := by
    intro c hc
    simp only [decide_eq_true_eq]
    intro h
    exact hpre (h ▸ (List.take_sublist idx pre).subset (List.mem_reverse.mp hc))
  have h2 : ∀ c ∈ pre.drop idx, (fun c => decide (c ≠ '\n')) c = true := by
    intro c hc
    simp only [decide_eq_true_eq]
    intro h
    exact hpre (h ▸ (List.drop_sublist idx pre).subset hc)
  rw [takeWhile_all _ _ h1, List.reverse_reverse,
    takeWhile_all_append _ _ '\n' post h2 (by decide), List.take_append_drop]

theorem claimLineText_shift (pre post : Text) (idx : Nat) (hpre : '\n' ∉ pre)
    (hidx : pre.length + 1 ≤ idx) :
    claimLineText (pre ++ '\n' :: post) idx =
      claimLineText post (idx - (pre.length + 1)) := by
  have htk : (pre ++ '\n' :: post).take idx =
      pre ++ '\n' :: post.take (idx - (pre.length + 1)) := by
    rw [List.take_append_eq_append_take, List.take_of_length_le (by omega)]
    have : idx - pre.length = (idx - (pre.length + 1)) + 1 := by omega
    rw [this, List.take_succ_cons]
  have hdr : (pre ++ '\n' :: post).drop idx = post.drop (idx - (pre.length + 1)) := by
    rw [List.drop_append_eq_append_drop, List.drop_of_length_le (by omega)]
    have : idx - pre.length = (idx - (pre.length + 1)) + 1 := by omega
    rw [this, List.drop_succ_cons, List.nil_append]
  rw [claimLineText, claimLineText, htk, hdr]
  have hrev : (pre ++ '\n' :: post.take (idx - (pre.length + 1))).reverse =
      (post.take (idx - (pre.length + 1))).reverse ++ '\n' :: pre.reverse := by
    rw [List.reverse_append, List.reverse_cons, List.append_assoc]
    simp
  rw [hrev, takeWhile_append_mid _ _ '\n' pre.reverse (by decide)]

theorem takeWhile_congr {α : Type} (p q : α → Bool) (l : List α)
    (h : ∀ x ∈ l, p x = q x) : l.takeWhile p = l.takeWhile q := by
  induction l with
  | nil => rfl
  | cons c cs ih =>
    rw [List.takeWhile_cons, List.takeWhile_cons, h c (List.mem_cons_self c cs)]
    by_cases hq : q c
    · rw [if_pos hq, if_pos hq, ih (fun x hx => h x (List.mem_cons_of_mem c hx))]
    · rw [if_neg hq, if_neg hq]

theorem bisect_low (ls : List Nat) (d idx : Nat) (hidx : idx < d) :
    bisect_right (0 :: ls.map (fun x => x + d)) idx = 1 := by
  rw [bisect_right, List.takeWhile_cons, if_pos (by simp)]
  rw [takeWhile_eq_nil_all _ _ (by
    intro x hx
    obtain ⟨y, _, hy⟩ := List.mem_map.mp hx
    simp only [decide_eq_false_iff_not]
    omega)]
  rfl

theorem bisect_shift (ls : List Nat) (d idx : Nat) (hd : d ≤ idx) :
    bisect_right (0 :: ls.map (fun x => x + d)) idx = 1 + bisect_right ls (idx - d) := by
  rw [bisect_right, List.takeWhile_cons, if_pos (by simp), List.length_cons]
  rw [List.takeWhile_map]
  rw [takeWhile_congr _ (fun v => decide (v ≤ idx - d)) ls (by
    intro x _
    simp only [Function.comp]
    by_cases h : x + d ≤ idx
    · rw [decide_eq_true (by omega : x ≤ idx - d), decide_eq_true h]
    · rw [decide_eq_false (by omega : ¬(x ≤ idx - d)), decide_eq_false h])]
  rw [List.length_map, bisect_right]
  omega

theorem bisect_ge_one (t : Text) (idx : Nat) :
    1 ≤ bisect_right (build_line_starts t) idx := by
  rw [build_line_starts, bisect_right, List.takeWhile_cons, if_pos (by simp)]
  simp

/-- The line that `index_to_line_col` selects from `splitlines t` is exactly
the claim's substring, whenever the text has no line boundaries other than
`\n` and the offset does not sit on a newline. -/
theorem line_lookup : ∀ (n : Nat) (t : Text) (idx : Nat), t.length ≤ n →
    (∀ c ∈ t, pyBoundary c = true → c = '\n') →
    idx < t.length → t.getD idx ' ' ≠ '\n' →
    bisect_right (build_line_starts t) idx ≤ (splitlines t).length ∧
    (splitlines t).getD (bisect_right (build_line_starts t) idx - 1) [] =
      claimLineText t idx := by
  intro n
  induction n with
  | zero => intro t idx h0 _ hidx _; omega
  | succ n ih =>
    intro t idx hn hb hidx hch
    by_cases hnl : '\n' ∈ t
    · obtain ⟨pre, post, ht, hpre⟩ := exists_first_nl t hnl
      subst ht
      rw [line_starts_append pre post hpre, splitlines_step pre post hb hpre]
      rcases Nat.lt_or_ge idx (pre.length + 1) with hlt | hge
      · have hne : idx ≠ pre.length := by
          intro he
          apply hch
          rw [he, List.getD_append_right pre ('\n' :: post) ' ' pre.length (Nat.le_refl _)]
          simp
        rw [bisect_low _ _ _ hlt]
        refine ⟨by simp, ?_⟩
        rw [claimLineText_left pre post idx hpre (by omega)]
        rfl
      · rw [bisect_shift _ _ _ hge]
        simp only [List.length_append, List.length_cons] at hidx hn
        have hidx' : idx - (pre.length + 1) < post.length := by omega
        have hch' : post.getD (idx - (pre.length + 1)) ' ' ≠ '\n' := by
          intro h
          apply hch
          rw [List.getD_append_right pre ('\n' :: post) ' ' idx (by omega)]
          have : idx - pre.length = (idx - (pre.length + 1)) + 1 := by omega
          rw [this, List.getD_cons_succ]
          exact h
        have hb' : ∀ c ∈ post, pyBoundary c = true → c = '\n' := by
          intro c hc
          exact hb c (List.mem_append.mpr (Or.inr (List.mem_cons_of_mem '\n' hc)))
        have hpostlen : post.length ≤ n := by omega
        obtain ⟨ihb, ihg⟩ := ih post (idx - (pre.length + 1)) hpostlen hb' hidx' hch'
        constructor
        · rw [List.length_cons]
          omega
        · have hsucc : 1 + bisect_right (build_line_starts post) (idx - (pre.length + 1)) - 1 =
              (bisect_right (build_line_starts post) (idx - (pre.length + 1)) - 1) + 1 := by
            have := bisect_ge_one post (idx - (pre.length + 1))
            omega
          rw [hsucc, List.getD_cons_succ, ihg,
            claimLineText_shift pre post idx hpre hge]
    · have hne : t ≠ [] := by
        intro h
        rw [h] at hidx
        simp at hidx
      rw [splitlines_single t hb hnl hne]
      have hls : build_line_starts t = [0] := by
        rw [build_line_starts, nlAux_nil_of_no_nl t hnl 0]
        rfl
      rw [hls]
      have hb1 : bisect_right [0] idx = 1 := by
        rw [bisect_right, List.takeWhile_cons, if_pos (by simp)]
        rfl
      rw [hb1, claimLineText_no_nl t idx hnl]
      exact ⟨Nat.le_refl 1, rfl⟩

theorem mkIssue_line_text (t : Text)
    (hb : ∀ c ∈ t, pyBoundary c = true → c = '\n')
    (k : IKind) (idx : Nat) (c : Text) (ln : Nat)
    (hidx : idx < t.length) (hch : t.getD idx ' ' ≠ '\n') :
    (mkIssue t k idx c ln).line_text = claimLineText t idx := by
  have hb1 := bisect_ge_one t idx
  obtain ⟨hble, hgd⟩ := line_lookup t.length t idx (Nat.le_refl _) hb hidx hch
  have hred : (mkIssue t k idx c ln).line_text =
      (if 1 ≤ (index_to_line_col idx (build_line_starts t)).1 ∧
          (index_to_line_col idx (build_line_starts t)).1 ≤ (splitlines t).length then
        (splitlines t).getD ((index_to_line_col idx (build_line_starts t)).1 - 1) []
      else []) := rfl
  have hl1 : (index_to_line_col idx (build_line_starts t)).1 =
      bisect_right (build_line_starts t) idx := by
    show bisect_right (build_line_starts t) idx - 1 + 1 = _
    omega
  rw [hred, hl1, if_pos ⟨hb1, hble⟩, hgd]

theorem isDigitCh_ne_nl (c : Char) (h : isDigitCh c = true) : c ≠ '\n' := by
  intro hc
  rw [hc] at h
  exact absurd h (by decide)

theorem letterOK_ne_nl (c : Char) (h : letterOK c = true) : c ≠ '\n' := by
  intro hc
  rw [hc] at h
  exact absurd h (by decide)

theorem punctList_ne_nl (c : Char) (h : c ∈ punctList) : c ≠ '\n' := by
  intro hc
  rw [hc] at h
  exact absurd h (by decide)

/-- Every issue of `analyze_text` is built by `mkIssue` at an in-range
offset whose character in the original text is not a newline. -/
theorem analyze_issue_shape (t : Text) (is : Issue) (h : is ∈ analyze_text t) :
    ∃ k idx c ln, is = mkIssue t k idx c ln ∧ idx < t.length ∧ t.getD idx ' ' ≠ '\n' := by
  have hc := analyze_mem_concat t is h
  rw [concatIssues] at hc
  simp only [List.append_assoc, List.mem_append] at hc
  rcases hc with hd | hl | hp | hs1 | hs2 | hb
  · rw [find_digits_outside_math] at hd
    obtain ⟨i, hi, heq⟩ := List.mem_map.mp hd
    obtain ⟨hr, hcnd⟩ := List.mem_filter.mp hi
    have hlt : i < t.length := by simpa using hr
    refine ⟨_, i, _, _, heq.symm, hlt, ?_⟩
    rcases maskFoldChars_stable PATS t i ' ' with hst | hst
    · rw [mask_math_regions, hst] at hcnd
      exact isDigitCh_ne_nl _ hcnd
    · rw [mask_math_regions, hst] at hcnd
      exact absurd hcnd (by decide)
  · rw [find_single_letters_outside_math] at hl
    obtain ⟨i, hi, heq⟩ := List.mem_map.mp hl
    obtain ⟨hr, hcnd⟩ := List.mem_filter.mp hi
    have hlt : i < t.length := by simpa using hr
    rw [letterCondAt] at hcnd
    simp only [Bool.and_eq_true] at hcnd
    have hlet := hcnd.1.1
    refine ⟨_, i, _, _, heq.symm, hlt, ?_⟩
    rcases maskFoldChars_stable PATS t i ' ' with hst | hst
    · rw [mask_math_regions, hst] at hlet
      exact letterOK_ne_nl _ hlet
    · rw [mask_math_regions, hst] at hlet
      exact absurd hlet (by decide)
  · rw [find_commas_colons_inside_math] at hp
    obtain ⟨r, hr, hmem2⟩ := List.mem_flatMap.mp hp
    obtain ⟨p, hpmem, heq⟩ := List.mem_map.mp hmem2
    obtain ⟨hge, hplt⟩ := commaScanAux_range t (r.2 - r.1) [] r.1 p hpmem
    obtain ⟨k', hk'⟩ : ∃ k', (k', r.1, r.2) ∈ regionsTagged t := by
      rw [get_math_regions] at hr
      obtain ⟨⟨k', s', e'⟩, hmem', heq'⟩ := List.mem_map.mp hr
      have hs' : r.1 = s' := congrArg Prod.fst heq'.symm
      have he' : r.2 = e' := congrArg Prod.snd heq'.symm
      exact ⟨k', by rw [hs', he']; exact hmem'⟩
    have hbounds := runPatterns_start PATS t k' r.1 r.2 hk'
    refine ⟨_, p, _, _, heq.symm, by omega, ?_⟩
    rcases commaScanAux_char t (r.2 - r.1) [] r.1 p hpmem with h' | h' <;> rw [h'] <;> decide
  · rw [find_spacing_around_punctuation] at hs1
    obtain ⟨i, hi, heq⟩ := List.mem_map.mp hs1
    obtain ⟨hr, hcnd⟩ := List.mem_filter.mp hi
    have hlt : i < t.length := by simpa using hr
    obtain ⟨hpn, _, _⟩ := (spacingPunctCond_iff t i).mp hcnd
    exact ⟨_, i, _, _, heq.symm, hlt, punctList_ne_nl _ hpn⟩
  · rw [find_spacing_inside_delimiters] at hs2
    obtain ⟨i, hi, heq⟩ := List.mem_map.mp hs2
    obtain ⟨hr, hcnd⟩ := List.mem_filter.mp hi
    have hlt : i < t.length := by simpa using hr
    rw [spacingDelimCond] at hcnd
    simp only [Bool.and_eq_true, decide_eq_true_eq] at hcnd
    refine ⟨_, i, _, _, heq.symm, hlt, ?_⟩
    rw [hcnd.1.1]
    decide
  · rw [find_double_backslashes] at hb
    obtain ⟨p, hpmem, heq⟩ := List.mem_map.mp hb
    obtain ⟨hplt, hc1, _⟩ := dblAux_chars t t.length 0 p hpmem
    refine ⟨_, p, _, _, heq.symm, by omega, ?_⟩
    rw [hc1]
    decide

/-- C4, counterexample: on `"a\r5"` the issue at offset 2 carries
`line_text = "a"` (the `str.splitlines` entry for the `\r`-terminated
line), while the substring from the `\n`-based line start to the next
newline is the whole text `"a\r5"`. -/
theorem c4_counterexample :
    (analyze_text (strL "a\r5")).map (fun is => (is.index, is.line_text)) =
      [(2, strL "a")] ∧
    claimLineText (strL "a\r5") 2 = strL "a\r5" ∧
    (strL "a" : Text) ≠ strL "a\r5" := by decide

/-- C4, amended: for texts whose only line-boundary characters are `\n`
(no `\r`, form feeds, or other Unicode line boundaries), every issue of
`analyze_text` has `line_text` equal to the substring of `t` between the
line start at or before its index and the next newline or end of text;
with other boundary characters present this fails (`c4_counterexample`),
because `line_text` comes from `str.splitlines` while positions come from
`\n`-based line starts. -/
theorem c4_line_text (t : Text)
    (hb : ∀ c ∈ t, pyBoundary c = true → c = '\n') :
    ∀ is ∈ analyze_text t, is.line_text = claimLineText t is.index := by
  intro is h
  obtain ⟨k, idx, c, ln, heq, hidx, hch⟩ := analyze_issue_shape t is h
  rw [heq, mkIssue_index, mkIssue_line_text t hb k idx c ln hidx hch]

/-- C4, witness on `"1\n2"`: the digit issue at offset 2 (line 2) carries
`line_text` equal to the claim's substring. -/
theorem c4_witness :
    ({ kind := IKind.digit, index := 2, line := 2, col := 1, ch := ['2'],
       line_text := strL "2", len := 1 } : Issue).line_text =
      claimLineText (strL "1\n2") 2 :=
  c4_line_text (strL "1\n2") (by decide) _ (by decide)

end LatexChecker
